import Mathlib

/-! Verification of `migrate-db.go` of simple-admin-core.

A shallow embedding of the one program of the repository, `func main` of
`migrate-db.go`, and of the schema reconciliation engine that the specification
describes behind the `client.Schema.Create` call.

* Part 1 embeds `main` as a function from the results of its two
  external calls to the run it performs: the ordered trace of calls, the
  deferred calls left pending, and the exit code.
* Part 2 models the engine (Differencer, DDL Planner, Executor)
  from the specification, since the package behind `client.Schema.Create` is
  not part of the source file.
-/

namespace MigrateDb

/-! ## Part 1: the embedding of `main` -/

/-- A Go `error` value that is not nil, identified by its text. -/
structure GoError where
  text : String
deriving DecidableEq, Repr

/-- The contexts `main` builds: only `context.Background()`; `todo` stands for
any other context value so that "the background context" is a real statement. -/
inductive Context where
  | background
  | todo
deriving DecidableEq, Repr

/-- Modelled from the spec: the option constructors of package `migrate` are not
in the source file, which only calls `migrate.WithForeignKeys`. One constructor
per recognised configuration option of section 6 of the specification:
`foreignKeys`, `destructive`, `dryRun`, `timeout`. -/
inductive MigrateOption where
  | WithForeignKeys (enable : Bool)
  | WithDestructive (enable : Bool)
  | WithDryRun (enable : Bool)
  | WithTimeout (millis : Nat)
deriving DecidableEq, Repr

/-- Modelled from the spec: the configuration record of section 6. -/
structure Config where
  destructive : Bool
  foreignKeys : Bool
  dryRun : Bool
  timeout : Option Nat
deriving DecidableEq, Repr

/-- Modelled from the spec: the defaults of section 6, `destructive: false`,
`foreignKeys: true`, `dryRun: false`, `timeout: none`. -/
def defaultConfig : Config :=
  { destructive := false, foreignKeys := true, dryRun := false, timeout := none }

/-- Modelled from the spec: an option sets the configuration field it is named
after and leaves the others alone. -/
def applyOption (c : Config) : MigrateOption → Config
  | .WithForeignKeys b => { c with foreignKeys := b }
  | .WithDestructive b => { c with destructive := b }
  | .WithDryRun b => { c with dryRun := b }
  | .WithTimeout d => { c with timeout := some d }

/-- The configuration a list of options denotes: the defaults, then every
option in the order given. -/
def configOf (opts : List MigrateOption) : Config :=
  opts.foldl applyOption defaultConfig

/-- The observable steps of a run of the program, in source order of the calls
that produce them. -/
inductive Event where
  /-- The call `ent.Open(driverName, dataSourceName)`. -/
  | entOpen (driverName dataSourceName : String)
  /-- The call `client.Schema.Create(ctx, opts...)`. -/
  | schemaCreate (ctx : Context) (opts : List MigrateOption)
  /-- The call `client.Close()`. -/
  | clientClose
  /-- The message part of `log.Fatalf(format, err)`. -/
  | logFatalf (format : String) (err : GoError)
  /-- The call `log.Println(msg)`. -/
  | logPrintln (msg : String)
  /-- The call `os.Exit(code)`, which `log.Fatalf` makes with code 1 after logging. -/
  | osExit (code : Nat)
deriving DecidableEq, Repr

/-- Whether the event is a call of `ent.Open`. -/
def Event.isEntOpen : Event → Bool
  | .entOpen _ _ => true
  | _ => false

/-- Whether the event is a call of `client.Schema.Create`. -/
def Event.isSchemaCreate : Event → Bool
  | .schemaCreate _ _ => true
  | _ => false

/-- Whether the event is a call of `client.Close`. -/
def Event.isClientClose : Event → Bool
  | .clientClose => true
  | _ => false

/-- Whether the event is a call on the database client: open, create or close. -/
def Event.isDatabaseCall : Event → Bool
  | .entOpen _ _ => true
  | .schemaCreate _ _ => true
  | .clientClose => true
  | _ => false

/-- Whether the event is a `log.Println`. -/
def Event.isLogPrintln : Event → Bool
  | .logPrintln _ => true
  | _ => false

/-- Whether the event is the message of a `log.Fatalf`. -/
def Event.isLogFatalf : Event → Bool
  | .logFatalf _ _ => true
  | _ => false

/-- What the process can read from its surroundings. `main` takes it so that
"reads no argument, environment variable or file" can be stated. -/
structure Process where
  args : List String
  environ : List (String × String)
  files : List (String × String)
deriving DecidableEq, Repr

/-- The results of the two external calls: the `err` result of each, `none` for
a nil error. The client value `ent.Open` returns is only used as the receiver
of `Schema.Create` and `Close`, so it carries no data here. -/
structure World where
  entOpen : String → String → Option GoError
  schemaCreate : Context → List MigrateOption → Option GoError

/-- The state of the running `main`: the trace so far and the stack of deferred
calls, most recently deferred first. -/
structure Proc where
  trace : List Event
  deferred : List Event
deriving DecidableEq, Repr

/-- A finished run: every event in order, the deferred calls that were never
run, and the exit code of the process. -/
structure Run where
  trace : List Event
  pending : List Event
  exitCode : Nat
deriving DecidableEq, Repr

/-- Perform a call: it is appended to the trace. -/
def Proc.call (p : Proc) (e : Event) : Proc :=
  { p with trace := p.trace ++ [e] }

/-- The `defer` statement: push the call, run nothing now. -/
def Proc.defer (p : Proc) (e : Event) : Proc :=
  { p with deferred := e :: p.deferred }

/-- Go's `log.Fatalf`: print the message, then `os.Exit(1)`. The process ends at
once and deferred calls are not run. -/
def Proc.fatalf (p : Proc) (format : String) (err : GoError) : Run :=
  { trace := p.trace ++ [Event.logFatalf format err, Event.osExit 1]
    pending := p.deferred
    exitCode := 1 }

/-- Returning from `main`: the deferred calls run, most recent first, and the
process exits with code 0. -/
def Proc.returnFromMain (p : Proc) : Run :=
  { trace := p.trace ++ p.deferred
    pending := []
    exitCode := 0 }

/-- The driver name literal of `main`. -/
def driverName : String := "mysql"

/-- The data source literal of `main`. -/
def dataSourceName : String := "root:@tcp(127.0.0.1:3306)/simple_admin?parseTime=True"

/-- The format literal of the first `log.Fatalf`. -/
def openFailedFormat : String := "failed opening connection to mysql: %v"

/-- The format literal of the second `log.Fatalf`. -/
def createFailedFormat : String := "failed creating schema resources: %v"

/-- The literal `main` passes to `log.Println`. -/
def successMessage : String := "✅ Database migration completed successfully!"

/-- The options `main` passes to `client.Schema.Create`. -/
def createOptions : List MigrateOption := [MigrateOption.WithForeignKeys false]

/-- The program: `func main()` of `migrate-db.go`, statement by statement. -/
def main (_os : Process) (w : World) : Run :=
  let p0 : Proc := { trace := [], deferred := [] }
  -- client, err := ent.Open("mysql", "root:@tcp(127.0.0.1:3306)/simple_admin?parseTime=True")
  let p1 := p0.call (Event.entOpen driverName dataSourceName)
  match w.entOpen driverName dataSourceName with
  | some err =>
    -- log.Fatalf("failed opening connection to mysql: %v", err)
    p1.fatalf openFailedFormat err
  | none =>
    -- defer client.Close()
    let p2 := p1.defer Event.clientClose
    -- client.Schema.Create(context.Background(), migrate.WithForeignKeys(false))
    let p3 := p2.call (Event.schemaCreate Context.background createOptions)
    match w.schemaCreate Context.background createOptions with
    | some err =>
      -- log.Fatalf("failed creating schema resources: %v", err)
      p3.fatalf createFailedFormat err
    | none =>
      -- log.Println("✅ Database migration completed successfully!")
      let p4 := p3.call (Event.logPrintln successMessage)
      p4.returnFromMain

/-- The configuration `main` runs the schema creation with. -/
def mainConfig : Config := configOf createOptions

/-! ### The three runs and example worlds -/

/-- The run when `ent.Open` fails with `err`. -/
def runOpenFailed (err : GoError) : Run :=
  { trace := [Event.entOpen driverName dataSourceName,
              Event.logFatalf openFailedFormat err, Event.osExit 1]
    pending := []
    exitCode := 1 }

/-- The run when `ent.Open` succeeds and `Schema.Create` fails with `err`. -/
def runCreateFailed (err : GoError) : Run :=
  { trace := [Event.entOpen driverName dataSourceName,
              Event.schemaCreate Context.background createOptions,
              Event.logFatalf createFailedFormat err, Event.osExit 1]
    pending := [Event.clientClose]
    exitCode := 1 }

/-- The run when both calls succeed. -/
def runSucceeded : Run :=
  { trace := [Event.entOpen driverName dataSourceName,
              Event.schemaCreate Context.background createOptions,
              Event.logPrintln successMessage, Event.clientClose]
    pending := []
    exitCode := 0 }

/-- A world for the examples: `ent.Open` fails. -/
def worldOpenFails : World :=
  { entOpen := fun _ _ => some ⟨"dial tcp 127.0.0.1:3306: connect: connection refused"⟩
    schemaCreate := fun _ _ => none }

/-- A world for the examples: `ent.Open` succeeds, `Schema.Create` fails. -/
def worldCreateFails : World :=
  { entOpen := fun _ _ => none
    schemaCreate := fun _ _ => some ⟨"Error 1044: access denied"⟩ }

/-- A world for the examples: both calls succeed. -/
def worldOk : World :=
  { entOpen := fun _ _ => none
    schemaCreate := fun _ _ => none }

/-- A process with nothing to read. -/
def emptyProcess : Process := { args := [], environ := [], files := [] }

/-- Some occurrence of `a` in the list comes strictly before some occurrence of
`b`. -/
def occursBefore {α : Type} [DecidableEq α] (a b : α) : List α → Bool
  | [] => false
  | x :: xs => (decide (x = a) && decide (b ∈ xs)) || occursBefore a b xs

/-- A world for the examples that succeeds only for the arguments `main` uses. -/
def worldOkForMainOnly : World :=
  { entOpen := fun d s =>
      if d = driverName ∧ s = dataSourceName then none else some ⟨"unknown driver"⟩
    schemaCreate := fun c o =>
      if c = Context.background ∧ o = createOptions then none else some ⟨"unsupported option"⟩ }

/-- A process with arguments, an environment and a file to read. -/
def busyProcess : Process :=
  { args := ["migrate-db", "--dsn", "root:secret@tcp(10.0.0.1:3306)/prod"]
    environ := [("MYSQL_DSN", "root:secret@tcp(10.0.0.1:3306)/prod")]
    files := [("config.yaml", "dsn: other")] }

end MigrateDb

namespace MigrateDb

/-! ## Part 2: the schema reconciliation engine of the specification

`client.Schema.Create` is implemented in package `migrate`, which is not in the
source file; the specification describes the engine behind it (Schema Model,
Introspector, Differencer, DDL Planner, Executor). Every definition of this
part is modelled from the specification, section by section.

Where the specification is silent the model takes the reading stated at the
definition concerned:
* a name-keyed collection is a list in declaration order, and a name stands
  for the first entry that carries it (`lookup`, `firstByName`);
* operation kinds are ordered as section 3 lists them (`OperationKind.rank`);
* the Planner puts drops before additions between the leading table creations
  and the trailing foreign-key creations (`middlePhases`);
* the database executes an operation as its name says and refuses one that
  cannot be executed (`exec`). -/

/-- Modelled from the spec: the logical column types of section 3, with the
opaque "unknown" type section 4.2 gives to unmapped native types. -/
inductive LogicalType where
  | integer (bits : Nat)
  | text
  | boolean
  | timestamp
  | binary
  | decimal (precision scale : Nat)
  | unknown (native : String)
deriving DecidableEq, Repr

/-- Modelled from the spec: whether the type is the opaque unknown type. -/
def LogicalType.isUnknown : LogicalType → Bool
  | .unknown _ => true
  | _ => false

/-- Modelled from the spec: on-delete and on-update actions of section 3. -/
inductive ReferentialAction where
  | cascade
  | restrict
  | setNull
  | noAction
deriving DecidableEq, Repr

/-- Modelled from the spec: ColumnSpec of section 3. -/
structure ColumnSpec where
  name : String
  logicalType : LogicalType
  nullable : Bool
  defaultValue : Option String
  autoIncrement : Bool
deriving DecidableEq, Repr

/-- Modelled from the spec: IndexSpec of section 3. -/
structure IndexSpec where
  name : String
  columns : List String
  unique : Bool
deriving DecidableEq, Repr

/-- Modelled from the spec: ForeignKeySpec of section 3. -/
structure ForeignKeySpec where
  name : String
  columns : List String
  refTable : String
  refColumns : List String
  onDelete : ReferentialAction
  onUpdate : ReferentialAction
deriving DecidableEq, Repr

/-- Modelled from the spec: TableSpec of section 3. -/
structure TableSpec where
  name : String
  columns : List ColumnSpec
  indexes : List IndexSpec
  foreignKeys : List ForeignKeySpec
deriving DecidableEq, Repr

/-- Modelled from the spec: SchemaModel of section 3, the tables in declaration
order. -/
abbrev SchemaModel := List TableSpec

/-- Modelled from the spec: the Operation variants of section 3. Each carries
the data that describes its inverse: a drop carries what is dropped, an alter
carries the old and the new column. -/
inductive Operation where
  | CreateTable (table : TableSpec)
  | DropTable (table : TableSpec)
  | AddColumn (table : String) (column : ColumnSpec)
  | DropColumn (table : String) (column : ColumnSpec)
  | AlterColumnType (table : String) (old new : ColumnSpec)
  | AddIndex (table : String) (index : IndexSpec)
  | DropIndex (table : String) (index : IndexSpec)
  | AddForeignKey (table : String) (foreignKey : ForeignKeySpec)
  | DropForeignKey (table : String) (foreignKey : ForeignKeySpec)
deriving DecidableEq, Repr

/-- Modelled from the spec: SchemaDiff of section 3, an ordered sequence of
operations. -/
abbrev SchemaDiff := List Operation

/-- Modelled from the spec: the kinds of operation, in the order section 3 lists
them. -/
inductive OperationKind where
  | createTable
  | dropTable
  | addColumn
  | dropColumn
  | alterColumnType
  | addIndex
  | dropIndex
  | addForeignKey
  | dropForeignKey
deriving DecidableEq, Repr

/-- Modelled from the spec: the kind of an operation. -/
def Operation.kind : Operation → OperationKind
  | .CreateTable _ => .createTable
  | .DropTable _ => .dropTable
  | .AddColumn _ _ => .addColumn
  | .DropColumn _ _ => .dropColumn
  | .AlterColumnType _ _ _ => .alterColumnType
  | .AddIndex _ _ => .addIndex
  | .DropIndex _ _ => .dropIndex
  | .AddForeignKey _ _ => .addForeignKey
  | .DropForeignKey _ _ => .dropForeignKey

/-- Modelled from the spec: the position of a kind in the listing of section 3.
Section 4.3 sorts the diff by operation kind and gives no other order of the
kinds. -/
def OperationKind.rank : OperationKind → Nat
  | .createTable => 0
  | .dropTable => 1
  | .addColumn => 2
  | .dropColumn => 3
  | .alterColumnType => 4
  | .addIndex => 5
  | .dropIndex => 6
  | .addForeignKey => 7
  | .dropForeignKey => 8

/-- Modelled from the spec: the name of the table an operation works on. -/
def Operation.tableName : Operation → String
  | .CreateTable t => t.name
  | .DropTable t => t.name
  | .AddColumn n _ => n
  | .DropColumn n _ => n
  | .AlterColumnType n _ _ => n
  | .AddIndex n _ => n
  | .DropIndex n _ => n
  | .AddForeignKey n _ => n
  | .DropForeignKey n _ => n

/-- Modelled from the spec: the name of the object an operation creates, changes or
drops. -/
def Operation.objectName : Operation → String
  | .CreateTable t => t.name
  | .DropTable t => t.name
  | .AddColumn _ c => c.name
  | .DropColumn _ c => c.name
  | .AlterColumnType _ _ c => c.name
  | .AddIndex _ i => i.name
  | .DropIndex _ i => i.name
  | .AddForeignKey _ k => k.name
  | .DropForeignKey _ k => k.name

/-- Modelled from the spec: the error taxonomy of section 7. The blocked
operations are carried by `DestructiveOperationBlockedError`, whose message
enumerates them. -/
inductive ErrorKind where
  | InvalidSchemaError
  | IntrospectionError
  | CyclicDependencyError
  | DestructiveOperationBlockedError (blocked : List Operation)
  | ExecutionError
  | TimeoutError
deriving DecidableEq, Repr

/-- Modelled from the spec: the entry a name stands for in a name-keyed list. The
specification compares tables, columns, indexes and foreign keys by name and
does not say what a repeated name stands for; here it stands for the first
entry that carries it. -/
def lookup {α : Type} (key : α → String) (l : List α) (n : String) : Option α :=
  l.find? (fun x => key x == n)

/-- Modelled from the spec: the entries of a name-keyed list that their names stand
for, in list order: an entry whose name was already seen is left out. -/
def firstByName {α : Type} (key : α → String) : List α → List α
  | [] => []
  | x :: xs => x :: (firstByName key xs).filter (fun y => key y != key x)

/-- Modelled from the spec: the table a name stands for in a schema. -/
def findTable (m : SchemaModel) (n : String) : Option TableSpec :=
  lookup TableSpec.name m n

/-- Modelled from the spec: the column a name stands for in a table. -/
def TableSpec.findColumn (t : TableSpec) (n : String) : Option ColumnSpec :=
  lookup ColumnSpec.name t.columns n

/-- Modelled from the spec: the index a name stands for in a table. -/
def TableSpec.findIndex (t : TableSpec) (n : String) : Option IndexSpec :=
  lookup IndexSpec.name t.indexes n

/-- Modelled from the spec: the foreign key a name stands for in a table. -/
def TableSpec.findForeignKey (t : TableSpec) (n : String) : Option ForeignKeySpec :=
  lookup ForeignKeySpec.name t.foreignKeys n

/-! ### Section 4.1: Schema Model validation -/

/-- Modelled from the spec: whether the names of a name-keyed list are pairwise
different. -/
def namesUnique {α : Type} (key : α → String) (l : List α) : Bool :=
  decide ((l.map key).Nodup)

/-- Modelled from the spec: whether a foreign key of table `t` is well-formed in
schema `m`: its local columns exist, its referenced table and columns exist,
and both column lists have the same length. -/
def foreignKeyValid (m : SchemaModel) (t : TableSpec) (k : ForeignKeySpec) : Bool :=
  k.columns.all (fun c => (t.findColumn c).isSome) &&
  (match findTable m k.refTable with
   | none => false
   | some r => k.refColumns.all (fun c => (r.findColumn c).isSome)) &&
  k.columns.length == k.refColumns.length

/-- Modelled from the spec: whether a table is well-formed in schema `m`. -/
def tableValid (m : SchemaModel) (t : TableSpec) : Bool :=
  namesUnique ColumnSpec.name t.columns &&
  namesUnique IndexSpec.name t.indexes &&
  t.indexes.all (fun i => i.columns.all (fun c => (t.findColumn c).isSome)) &&
  t.foreignKeys.all (foreignKeyValid m t)

/-- Modelled from the spec: `Validate()` of section 4.1. It fails with
`InvalidSchemaError` when a foreign key references a table or column that does
not exist, when a foreign key's column count differs from the referenced key's,
when an index references a column that does not exist, or when table, column
or index names are duplicated within their scope. `none` is success. -/
def Validate (m : SchemaModel) : Option ErrorKind :=
  if namesUnique TableSpec.name m && m.all (tableValid m) then none
  else some ErrorKind.InvalidSchemaError

/-! ### Section 4.2 and the live database -/

/-- Modelled from the spec: a statement sent over the connection, either the DDL
statement of one operation or transaction control. -/
inductive Statement where
  | begin
  | commit
  | rollback
  | ddl (op : Operation)
deriving DecidableEq, Repr

/-- Modelled from the spec: whether the statement is a DDL statement. -/
def Statement.isDdl : Statement → Bool
  | .ddl _ => true
  | _ => false

/-- Modelled from the spec: the database connection capability of section 6,
with the database behind it. `live` is the actual schema of the database in
logical types, `transactionalDDL` whether DDL can be rolled back, `readable`
whether metadata queries succeed, `sent` every statement sent so far. -/
structure Connection where
  live : SchemaModel
  transactionalDDL : Bool
  readable : Bool
  sent : List Statement
deriving DecidableEq, Repr

/-- Modelled from the spec: `Introspect(connection)` of section 4.2. It reads
the actual schema, sends no statement, and fails with `IntrospectionError`
when the metadata cannot be read. -/
def Introspect (conn : Connection) : Except ErrorKind SchemaModel :=
  if conn.readable then Except.ok conn.live else Except.error ErrorKind.IntrospectionError

/-! ### Section 4.3: Differencer -/

/-- Modelled from the spec: what the specification leaves to the dialect. A
column change is "strictly widening/loosening" (section 4.3, step 3) when
`widening old new` holds; the specification names NOT NULL to NULL as one such
change and fixes no list, so the relation is a parameter. -/
structure Dialect where
  widening : ColumnSpec → ColumnSpec → Bool

/-- Modelled from the spec: whether two columns of the same name differ in type,
nullability or default (section 4.3, step 3). -/
def columnDiffers (old new : ColumnSpec) : Bool :=
  old.logicalType != new.logicalType || old.nullable != new.nullable ||
    old.defaultValue != new.defaultValue

/-- Modelled from the spec: whether a differing column is altered: never when the
actual type is unknown (section 4.2), and otherwise when destructive changes
are allowed or the change is widening (section 4.3, step 3). -/
def alterAllowed (dia : Dialect) (destructive : Bool) (old new : ColumnSpec) : Bool :=
  !old.logicalType.isUnknown && (destructive || dia.widening old new)

/-- Modelled from the spec: comparison by name of two name-keyed lists, the pattern
of every step of section 4.3. Each desired entry is compared with the actual
entry of its name, if any, and gives the operations `onDesired` says; each
actual entry whose name is not desired gives the removal `onRemoved`, only when
the destructive flag is set. -/
def diffByName {α : Type} (key : α → String) (destructive : Bool) (desired actual : List α)
    (onDesired : α → Option α → List Operation) (onRemoved : α → Operation) : List Operation :=
  (firstByName key desired).flatMap (fun d => onDesired d (lookup key actual (key d))) ++
  (if destructive then
    ((firstByName key actual).filter (fun a => (lookup key desired (key a)).isNone)).map onRemoved
   else [])

/-- Modelled from the spec: section 4.3, step 3, for one column of table `table`:
missing in actual gives `AddColumn`; present with a differing type, nullability
or default gives `AlterColumnType`, gated by the destructive flag unless the
change is widening. -/
def columnChange (dia : Dialect) (destructive : Bool) (table : String) (c : ColumnSpec) :
    Option ColumnSpec → List Operation
  | none => [Operation.AddColumn table c]
  | some old =>
    if columnDiffers old c && alterAllowed dia destructive old c
    then [Operation.AlterColumnType table old c] else []

/-- Modelled from the spec: section 4.3, step 4, for one index: missing in actual
gives `AddIndex`, always included; a changed definition gives a Drop and Add
pair. The specification gates removals by the destructive flag and says nothing
of gating the pair, so the pair is in the diff whatever the flag, and the
safety gate of `Apply` meets its Drop. -/
def indexChange (table : String) (i : IndexSpec) : Option IndexSpec → List Operation
  | none => [Operation.AddIndex table i]
  | some old =>
    if old = i then [] else [Operation.DropIndex table old, Operation.AddIndex table i]

/-- Modelled from the spec: section 4.3, step 4, for one foreign key, as for one
index. -/
def foreignKeyChange (table : String) (k : ForeignKeySpec) :
    Option ForeignKeySpec → List Operation
  | none => [Operation.AddForeignKey table k]
  | some old =>
    if old = k then []
    else [Operation.DropForeignKey table old, Operation.AddForeignKey table k]

/-- Modelled from the spec: section 4.3, step 3: column-by-column comparison by
name of a table present in both schemas; a column missing in desired gives
`DropColumn` when destructive. -/
def diffColumns (dia : Dialect) (destructive : Bool) (a d : TableSpec) : SchemaDiff :=
  diffByName ColumnSpec.name destructive d.columns a.columns
    (columnChange dia destructive d.name) (Operation.DropColumn d.name)

/-- Modelled from the spec: section 4.3, step 4 for indexes: compared by name;
additions always, removals when destructive, a definition change as a Drop and
Add pair. -/
def diffIndexes (destructive : Bool) (a d : TableSpec) : SchemaDiff :=
  diffByName IndexSpec.name destructive d.indexes a.indexes
    (indexChange d.name) (Operation.DropIndex d.name)

/-- Modelled from the spec: section 4.3, step 4 for foreign keys. -/
def diffForeignKeys (destructive : Bool) (a d : TableSpec) : SchemaDiff :=
  diffByName ForeignKeySpec.name destructive d.foreignKeys a.foreignKeys
    (foreignKeyChange d.name) (Operation.DropForeignKey d.name)

/-- Modelled from the spec: the changes to a table present in both schemas. -/
def diffTable (dia : Dialect) (destructive : Bool) (a d : TableSpec) : SchemaDiff :=
  diffColumns dia destructive a d ++ diffIndexes destructive a d ++
    diffForeignKeys destructive a d

/-- Modelled from the spec: section 4.3, steps 1, 3 and 4 for one desired table:
absent in actual gives `CreateTable` with the full definition, present gives
the changes to it. -/
def tableChange (dia : Dialect) (destructive : Bool) (d : TableSpec) :
    Option TableSpec → List Operation
  | none => [Operation.CreateTable d]
  | some a => diffTable dia destructive a d

/-- Modelled from the spec: the operations of the diff before they are ordered:
steps 1, 3 and 4 for every desired table, and step 2, `DropTable` when
destructive, for the actual tables that are not desired. -/
def diffUnordered (dia : Dialect) (destructive : Bool) (actual desired : SchemaModel) :
    SchemaDiff :=
  diffByName TableSpec.name destructive desired actual
    (tableChange dia destructive) Operation.DropTable

/-- Modelled from the spec: lexicographic order on character sequences by code
point. -/
def charsLt : List Char → List Char → Bool
  | [], [] => false
  | [], _ :: _ => true
  | _ :: _, [] => false
  | a :: as, b :: bs => decide (a.toNat < b.toNat) || (a.toNat == b.toNat && charsLt as bs)

/-- Modelled from the spec: the order on names: lexicographic by code point. -/
def nameLt (a b : String) : Bool :=
  charsLt a.data b.data

/-- Modelled from the spec: the order of the diff: by table name, then operation
kind, then object name. -/
def Operation.le (x y : Operation) : Bool :=
  nameLt x.tableName y.tableName ||
  (x.tableName == y.tableName &&
    (decide (x.kind.rank < y.kind.rank) ||
      (x.kind.rank == y.kind.rank && !nameLt y.objectName x.objectName)))

/-- Modelled from the spec: the Differencer of section 4.3. Without the
destructive flag, dropped tables, dropped columns and narrowing column changes
are left out of the diff. The result is sorted, so equal inputs give equal
diffs. -/
def Diff (dia : Dialect) (destructive : Bool) (actual desired : SchemaModel) : SchemaDiff :=
  (diffUnordered dia destructive actual desired).insertionSort
    (fun x y => Operation.le x y = true)

/-! ### Section 4.4: DDL Planner -/

/-- Modelled from the spec: a table without its foreign keys, as created when
foreign keys are deferred. -/
def stripForeignKeys (t : TableSpec) : TableSpec :=
  { t with foreignKeys := [] }

/-- Modelled from the spec: the deferred foreign-key operations of a created table. -/
def deferredForeignKeys (t : TableSpec) : List Operation :=
  (firstByName ForeignKeySpec.name t.foreignKeys).map (Operation.AddForeignKey t.name)

/-- Modelled from the spec: the tables the diff creates, in diff order. -/
def createdTables (diff : SchemaDiff) : List TableSpec :=
  diff.filterMap (fun op =>
    match op with
    | Operation.CreateTable t => some t
    | _ => none)

/-- Modelled from the spec: the operations of one kind, in diff order. -/
def ofKind (k : OperationKind) (diff : SchemaDiff) : List Operation :=
  diff.filter (fun op => op.kind = k)

/-- Modelled from the spec: whether table `t` has no outstanding dependency: every
foreign key of it references a table that is not among `remaining`, the tables
still to be created, or the table itself, which is no dependency on another
table. -/
def isReady (remaining : List TableSpec) (t : TableSpec) : Bool :=
  t.foreignKeys.all (fun k => k.refTable == t.name || (findTable remaining k.refTable).isNone)

/-- Modelled from the spec: topological sort by rounds. Each round emits the
remaining tables that are ready and goes on with the others; a round that emits
nothing while tables remain has found a cycle. Every round but the last removes
a table, so as many rounds as there are tables suffice. -/
def topoSortRounds : Nat → List TableSpec → List TableSpec → Option (List TableSpec)
  | 0, remaining, done => if remaining.isEmpty then some done else none
  | fuel + 1, remaining, done =>
    if remaining.isEmpty then some done
    else
      let ready := remaining.filter (isReady remaining)
      if ready.isEmpty then none
      else topoSortRounds fuel (remaining.filter (fun t => !isReady remaining t)) (done ++ ready)

/-- Modelled from the spec: topological sort of the tables to create over the
foreign-key graph restricted to them; `none` when the graph has a cycle. -/
def topoSort (tables : List TableSpec) : Option (List TableSpec) :=
  topoSortRounds tables.length tables []

/-- Modelled from the spec: the operations of the diff other than table creation
and foreign-key creation, in plan order. Section 4.4 asks for `DropForeignKey`
before `DropTable` and for `AddColumn` and `AlterColumnType` before `AddIndex`;
the model also puts every drop before every addition, so that a Drop and Add
pair runs in that order. -/
def middlePhases (diff : SchemaDiff) : List Operation :=
  ofKind .dropForeignKey diff ++ ofKind .dropIndex diff ++ ofKind .dropColumn diff ++
  ofKind .dropTable diff ++ ofKind .addColumn diff ++ ofKind .alterColumnType diff ++
  ofKind .addIndex diff

/-- Modelled from the spec: the DDL Planner of section 4.4. Table creations
come first. With foreign keys enabled they carry their foreign keys and are
sorted topologically, and a cycle fails with `CyclicDependencyError`. With
foreign keys disabled the tables are created without foreign keys and their
foreign keys are deferred to the trailing phase. The trailing phase holds the
foreign-key creations. -/
def Plan (foreignKeys : Bool) (diff : SchemaDiff) : Except ErrorKind (List Operation) :=
  if foreignKeys then
    match topoSort (createdTables diff) with
    | none => Except.error ErrorKind.CyclicDependencyError
    | some ordered =>
      Except.ok (ordered.map Operation.CreateTable ++ middlePhases diff ++
        ofKind .addForeignKey diff)
  else
    Except.ok ((createdTables diff).map (fun t => Operation.CreateTable (stripForeignKeys t)) ++
      middlePhases diff ++
      (ofKind .addForeignKey diff ++ (createdTables diff).flatMap deferredForeignKeys))

/-! ### The database behind the connection -/

/-- Modelled from the spec: whether a table can exist in a database: its column
names, index names and foreign-key names are pairwise different. -/
def tableWellFormed (t : TableSpec) : Bool :=
  namesUnique ColumnSpec.name t.columns && namesUnique IndexSpec.name t.indexes &&
    namesUnique ForeignKeySpec.name t.foreignKeys

/-- Modelled from the spec: whether the table a foreign key of table `self`
references exists. -/
def referenceExists (live : SchemaModel) (self : String) (k : ForeignKeySpec) : Bool :=
  k.refTable == self || (findTable live k.refTable).isSome

/-- Modelled from the spec: whether another table has a foreign key that references
table `n`. -/
def isReferenced (live : SchemaModel) (n : String) : Bool :=
  live.any (fun t => t.name != n && t.foreignKeys.any (fun k => k.refTable == n))

/-- Modelled from the spec: apply `f` to the table named `n`. -/
def modifyTable (live : SchemaModel) (n : String) (f : TableSpec → TableSpec) : SchemaModel :=
  live.map (fun t => if t.name == n then f t else t)

/-- Modelled from the spec: the database that executes the DDL statement of an
operation. The database is an external collaborator of the engine; it is
modelled as holding a schema on which each operation has the effect its name
says, and as refusing (`none`) a statement that cannot be executed: creating
what exists, dropping or altering what does not exist, a table with duplicated
names, a foreign key to a table that does not exist, dropping a table that
another table references. -/
def exec (live : SchemaModel) : Operation → Option SchemaModel
  | .CreateTable t =>
    if (findTable live t.name).isNone && tableWellFormed t &&
        t.foreignKeys.all (referenceExists live t.name)
    then some (live ++ [t]) else none
  | .DropTable t =>
    if (findTable live t.name).isSome && !isReferenced live t.name
    then some (live.filter (fun x => x.name != t.name)) else none
  | .AddColumn n c =>
    match findTable live n with
    | none => none
    | some a =>
      if (a.findColumn c.name).isNone
      then some (modifyTable live n (fun t => { t with columns := t.columns ++ [c] }))
      else none
  | .DropColumn n c =>
    match findTable live n with
    | none => none
    | some a =>
      if (a.findColumn c.name).isSome
      then some (modifyTable live n
        (fun t => { t with columns := t.columns.filter (fun x => x.name != c.name) }))
      else none
  | .AlterColumnType n _ c =>
    match findTable live n with
    | none => none
    | some a =>
      if (a.findColumn c.name).isSome
      then some (modifyTable live n
        (fun t => { t with columns := t.columns.map (fun x => if x.name == c.name then c else x) }))
      else none
  | .AddIndex n i =>
    match findTable live n with
    | none => none
    | some a =>
      if (a.findIndex i.name).isNone
      then some (modifyTable live n (fun t => { t with indexes := t.indexes ++ [i] }))
      else none
  | .DropIndex n i =>
    match findTable live n with
    | none => none
    | some a =>
      if (a.findIndex i.name).isSome
      then some (modifyTable live n
        (fun t => { t with indexes := t.indexes.filter (fun x => x.name != i.name) }))
      else none
  | .AddForeignKey n k =>
    match findTable live n with
    | none => none
    | some a =>
      if (a.findForeignKey k.name).isNone && referenceExists live n k
      then some (modifyTable live n (fun t => { t with foreignKeys := t.foreignKeys ++ [k] }))
      else none
  | .DropForeignKey n k =>
    match findTable live n with
    | none => none
    | some a =>
      if (a.findForeignKey k.name).isSome
      then some (modifyTable live n
        (fun t => { t with foreignKeys := t.foreignKeys.filter (fun x => x.name != k.name) }))
      else none

/-! ### Section 4.5: Executor -/

/-- Modelled from the spec: the Drop and narrowing operations of section 4.5,
the ones `allowDestructive` must be set for. A column change is narrowing when
it is not widening. -/
def isDestructive (dia : Dialect) : Operation → Bool
  | .DropTable _ => true
  | .DropColumn _ _ => true
  | .DropIndex _ _ => true
  | .DropForeignKey _ _ => true
  | .AlterColumnType _ old new => !dia.widening old new
  | _ => false

/-- Modelled from the spec: ApplyResult of section 6. `statements` is the DDL
sequence a dry run produces, one statement per operation. -/
structure ApplyResult where
  appliedOperations : List Operation
  failedOperation : Option Operation
  error : Option ErrorKind
  rolledBack : Bool
  statements : List Statement
deriving DecidableEq, Repr

/-- Modelled from the spec: the outcome of sending operations one after the other:
the schema reached, the operations applied, the operation refused if any. -/
structure Progress where
  live : SchemaModel
  applied : List Operation
  failed : Option Operation
deriving DecidableEq, Repr

/-- Modelled from the spec: send the operations in order until one is refused. -/
def runOperations (live : SchemaModel) (applied : List Operation) :
    List Operation → Progress
  | [] => { live := live, applied := applied, failed := none }
  | op :: rest =>
    match exec live op with
    | none => { live := live, applied := applied, failed := some op }
    | some next => runOperations next (applied ++ [op]) rest

/-- Modelled from the spec: the result of a run that failed before anything was
sent. -/
def failedBeforeSending (e : ErrorKind) (failed : Option Operation) : ApplyResult :=
  { appliedOperations := [], failedOperation := failed, error := some e,
    rolledBack := false, statements := [] }

/-- Modelled from the spec: `Apply(connection, plan, options)` of section 4.5.
The safety gate comes first: without `destructive`, a plan with a Drop or
narrowing operation fails with `DestructiveOperationBlockedError` before any
statement is sent. A dry run produces the statements without sending them.
Otherwise the operations are sent in plan order, inside one transaction when
the database has transactional DDL; on the first failure the transaction is
rolled back, or without transactional DDL the applied operations stay. The
`timeout` option is about real time and has no effect here. -/
def Apply (dia : Dialect) (conn : Connection) (plan : List Operation) (options : Config) :
    Connection × ApplyResult :=
  let blocked := plan.filter (isDestructive dia)
  if !options.destructive && !blocked.isEmpty then
    (conn, failedBeforeSending (ErrorKind.DestructiveOperationBlockedError blocked) blocked.head?)
  else if options.dryRun then
    (conn, { appliedOperations := [], failedOperation := none, error := none,
             rolledBack := false, statements := plan.map Statement.ddl })
  else
    let p := runOperations conn.live [] plan
    let sentDdl := (p.applied ++ p.failed.toList).map Statement.ddl
    match p.failed with
    | none =>
      ({ conn with
          live := p.live,
          sent := conn.sent ++
            (if conn.transactionalDDL then [Statement.begin] ++ sentDdl ++ [Statement.commit]
             else sentDdl) },
       { appliedOperations := p.applied, failedOperation := none, error := none,
         rolledBack := false, statements := [] })
    | some op =>
      if conn.transactionalDDL then
        ({ conn with sent := conn.sent ++ [Statement.begin] ++ sentDdl ++ [Statement.rollback] },
         { appliedOperations := p.applied, failedOperation := some op,
           error := some ErrorKind.ExecutionError, rolledBack := true, statements := [] })
      else
        ({ conn with live := p.live, sent := conn.sent ++ sentDdl },
         { appliedOperations := p.applied, failedOperation := some op,
           error := some ErrorKind.ExecutionError, rolledBack := false, statements := [] })

/-- Modelled from the spec: one full cycle, Validate, Introspect, Diff, Plan,
Apply, as the control flow of section 2 gives it. Validation and planning
errors come before anything is sent. -/
def reconcile (dia : Dialect) (options : Config) (desired : SchemaModel) (conn : Connection) :
    Connection × ApplyResult :=
  match Validate desired with
  | some e => (conn, failedBeforeSending e none)
  | none =>
    match Introspect conn with
    | Except.error e => (conn, failedBeforeSending e none)
    | Except.ok actual =>
      match Plan options.foreignKeys (Diff dia options.destructive actual desired) with
      | Except.error e => (conn, failedBeforeSending e none)
      | Except.ok plan => Apply dia conn plan options

/-! ### Example schemas -/

/-- A dialect for the examples: the only widening change is NOT NULL to NULL
with type and default unchanged. -/
def exampleDialect : Dialect :=
  { widening := fun old new =>
      old.logicalType == new.logicalType && old.defaultValue == new.defaultValue &&
        !old.nullable && new.nullable }

/-- An integer key column. -/
def idColumn (n : String) : ColumnSpec :=
  { name := n, logicalType := LogicalType.integer 64, nullable := false,
    defaultValue := none, autoIncrement := false }

/-- A text column. -/
def textColumn (n : String) (nullable : Bool) : ColumnSpec :=
  { name := n, logicalType := LogicalType.text, nullable := nullable,
    defaultValue := none, autoIncrement := false }

/-- Table `users(id, email)` with a unique index on `email`. -/
def usersTable : TableSpec :=
  { name := "users"
    columns := [idColumn "id", textColumn "email" false]
    indexes := [{ name := "users_email", columns := ["email"], unique := true }]
    foreignKeys := [] }

/-- The foreign key of `orders.user_id` to `users.id`. -/
def ordersUserKey : ForeignKeySpec :=
  { name := "orders_user", columns := ["user_id"], refTable := "users", refColumns := ["id"],
    onDelete := ReferentialAction.cascade, onUpdate := ReferentialAction.noAction }

/-- Table `orders(id, user_id)` with a foreign key to `users`. -/
def ordersTable : TableSpec :=
  { name := "orders"
    columns := [idColumn "id", idColumn "user_id"]
    indexes := []
    foreignKeys := [ordersUserKey] }

/-- The desired schema of the examples; `orders` is declared before the table
it references. -/
def shopSchema : SchemaModel := [ordersTable, usersTable]

/-- A database with no table, without transactional DDL, as MySQL. -/
def emptyDatabase : Connection :=
  { live := [], transactionalDDL := false, readable := true, sent := [] }

/-- The dropped column of the safety-gate example. -/
def legacyColumn : ColumnSpec := textColumn "legacy" true

/-- An older `users` table: `email` is nullable, the index on it is not unique,
and there is a `legacy` column. -/
def legacyUsers : TableSpec :=
  { name := "users"
    columns := [idColumn "id", textColumn "email" true, legacyColumn]
    indexes := [{ name := "users_email", columns := ["email"], unique := false }]
    foreignKeys := [] }

/-- A table the desired schema does not have. -/
def auditTable : TableSpec :=
  { name := "audit", columns := [idColumn "id"], indexes := [], foreignKeys := [] }

/-- A database with the older `users` table and the `audit` table, with
transactional DDL. -/
def legacyDatabase : Connection :=
  { live := [legacyUsers, auditTable], transactionalDDL := true, readable := true, sent := [] }

/-- The configuration with destructive changes allowed and the other options at
their defaults. -/
def destructiveConfig : Config := configOf [MigrateOption.WithDestructive true]

/-- Table `parents(id)`. -/
def parentsTable : TableSpec :=
  { name := "parents", columns := [idColumn "id"], indexes := [], foreignKeys := [] }

/-- Table `owners(id)`. -/
def ownersTable : TableSpec :=
  { name := "owners", columns := [idColumn "id"], indexes := [], foreignKeys := [] }

/-- The foreign key of `items.parent_id` to `parents.id`, named `items_ref`. -/
def itemsParentKey : ForeignKeySpec :=
  { name := "items_ref", columns := ["parent_id"], refTable := "parents", refColumns := ["id"],
    onDelete := ReferentialAction.cascade, onUpdate := ReferentialAction.noAction }

/-- The foreign key of `items.owner_id` to `owners.id`, with the same name
`items_ref` as the key to `parents`. -/
def itemsOwnerKey : ForeignKeySpec :=
  { name := "items_ref", columns := ["owner_id"], refTable := "owners", refColumns := ["id"],
    onDelete := ReferentialAction.cascade, onUpdate := ReferentialAction.noAction }

/-- Table `items(id, parent_id, owner_id)` with two foreign keys of the same
name, the one to `parents` first. -/
def itemsTable : TableSpec :=
  { name := "items"
    columns := [idColumn "id", idColumn "parent_id", idColumn "owner_id"]
    indexes := []
    foreignKeys := [itemsParentKey, itemsOwnerKey] }

/-- A desired schema that passes validation and in which a table has two
foreign keys of one name. -/
def repeatedKeySchema : SchemaModel := [itemsTable, ownersTable, parentsTable]

/-! ### Notions used to state the lemmas about the engine -/

/-- What `diffByName` yields for one name, given the desired and the actual
entry of that name. -/
def localDiff {α : Type} (destructive : Bool) (onDesired : α → Option α → List Operation)
    (onRemoved : α → Operation) : Option α → Option α → List Operation
  | some d, a => onDesired d a
  | none, some a => if destructive then [onRemoved a] else []
  | none, none => []

/-- What the Planner makes of one operation of the diff: with foreign keys
disabled a table creation becomes the creation without foreign keys and the
deferred foreign-key creations; every other operation is kept. -/
def expandOp (foreignKeys : Bool) : Operation → List Operation
  | .CreateTable t =>
    if foreignKeys then [Operation.CreateTable t]
    else Operation.CreateTable (stripForeignKeys t) :: deferredForeignKeys t
  | op => [op]

/-- What the Planner makes of the operations for one desired table. -/
def plannedChange (dia : Dialect) (options : Config) (d : TableSpec) (a : Option TableSpec) :
    List Operation :=
  (tableChange dia options.destructive d a).flatMap (expandOp options.foreignKeys)

/-- The operations a plan for the given schemas consists of, in no particular
order. -/
def planned (dia : Dialect) (options : Config) (actual desired : SchemaModel) :
    List Operation :=
  (diffUnordered dia options.destructive actual desired).flatMap (expandOp options.foreignKeys)

/-- The kinds of column operations. -/
def isColumnKind (k : OperationKind) : Prop :=
  k = OperationKind.addColumn ∨ k = OperationKind.alterColumnType ∨ k = OperationKind.dropColumn

/-- The kinds of index operations. -/
def isIndexKind (k : OperationKind) : Prop :=
  k = OperationKind.addIndex ∨ k = OperationKind.dropIndex

/-- The kinds of foreign-key operations. -/
def isForeignKeyKind (k : OperationKind) : Prop :=
  k = OperationKind.addForeignKey ∨ k = OperationKind.dropForeignKey

end MigrateDb

/-! ## Theorems about `main` -/

namespace MigrateDb

theorem main_of_open_failed (os : Process) (w : World) (err : GoError)
    (h : w.entOpen driverName dataSourceName = some err) :
    main os w = runOpenFailed err := by
  simp [main, h, Proc.call, Proc.fatalf, runOpenFailed]

theorem main_of_create_failed (os : Process) (w : World) (err : GoError)
    (ho : w.entOpen driverName dataSourceName = none)
    (hc : w.schemaCreate Context.background createOptions = some err) :
    main os w = runCreateFailed err := by
  simp [main, ho, hc, Proc.call, Proc.defer, Proc.fatalf, runCreateFailed]

theorem main_of_success (os : Process) (w : World)
    (ho : w.entOpen driverName dataSourceName = none)
    (hc : w.schemaCreate Context.background createOptions = none) :
    main os w = runSucceeded := by
  simp [main, ho, hc, Proc.call, Proc.defer, Proc.returnFromMain, runSucceeded]

/-- Every run of `main` is one of the three runs above, selected by the results
of the two external calls. -/
theorem main_cases (os : Process) (w : World) :
    (∃ err, w.entOpen driverName dataSourceName = some err ∧ main os w = runOpenFailed err) ∨
    (∃ err, w.entOpen driverName dataSourceName = none ∧
      w.schemaCreate Context.background createOptions = some err ∧
      main os w = runCreateFailed err) ∨
    (w.entOpen driverName dataSourceName = none ∧
      w.schemaCreate Context.background createOptions = none ∧
      main os w = runSucceeded) := by
  cases ho : w.entOpen driverName dataSourceName with
  | some err => exact Or.inl ⟨err, rfl, main_of_open_failed os w err ho⟩
  | none =>
    cases hc : w.schemaCreate Context.background createOptions with
    | some err => exact Or.inr (Or.inl ⟨err, rfl, rfl, main_of_create_failed os w err ho hc⟩)
    | none => exact Or.inr (Or.inr ⟨rfl, rfl, main_of_success os w ho hc⟩)

/-- C1: in every run `ent.Open` is called exactly once, and `Schema.Create` is
called exactly once when `ent.Open` returned no error and not at all when it
returned one; so neither call is repeated. -/
theorem main_open_once_create_once_iff_open_ok (os : Process) (w : World) :
    (main os w).trace.countP Event.isEntOpen = 1 ∧
    (main os w).trace.countP Event.isSchemaCreate =
      (if (w.entOpen driverName dataSourceName).isNone then 1 else 0) := by
  rcases main_cases os w with ⟨err, ho, hm⟩ | ⟨err, ho, hc, hm⟩ | ⟨ho, hc, hm⟩ <;>
    simp [hm, ho, runOpenFailed, runCreateFailed, runSucceeded, Event.isEntOpen,
      Event.isSchemaCreate, List.countP_cons]

/-- C2: when `ent.Open` or `Schema.Create` returns an error the run is exactly:
the calls made so far, the `log.Fatalf` message whose format names the failed
step and carries that error, and `os.Exit(1)`. Nothing follows, so there is no
recovery and no further database call; the exit code is 1. -/
theorem main_error_is_fatal (os : Process) (w : World) :
    (∀ err, w.entOpen driverName dataSourceName = some err →
      (main os w).trace =
        [Event.entOpen driverName dataSourceName,
         Event.logFatalf "failed opening connection to mysql: %v" err,
         Event.osExit 1] ∧
      (main os w).exitCode = 1) ∧
    (∀ err, w.entOpen driverName dataSourceName = none →
      w.schemaCreate Context.background createOptions = some err →
      (main os w).trace =
        [Event.entOpen driverName dataSourceName,
         Event.schemaCreate Context.background createOptions,
         Event.logFatalf "failed creating schema resources: %v" err,
         Event.osExit 1] ∧
      (main os w).exitCode = 1) ∧
    (∀ pre post format err, (main os w).trace = pre ++ Event.logFatalf format err :: post →
      post = [Event.osExit 1] ∧ (main os w).exitCode = 1 ∧
      post.countP Event.isDatabaseCall = 0) := by
  refine ⟨?_, ?_, ?_⟩
  · intro err h
    rw [main_of_open_failed os w err h]
    exact ⟨rfl, rfl⟩
  · intro err ho hc
    rw [main_of_create_failed os w err ho hc]
    exact ⟨rfl, rfl⟩
  · intro pre post format err h
    rcases main_cases os w with ⟨e, _, hm⟩ | ⟨e, _, _, hm⟩ | ⟨_, _, hm⟩
    · rw [hm] at h ⊢
      rcases pre with _ | ⟨a, _ | ⟨b, _ | ⟨c, _ | ⟨d, pre⟩⟩⟩⟩ <;>
        simp [runOpenFailed] at h
      simp [← h.2.2, Event.isDatabaseCall, runOpenFailed]
    · rw [hm] at h ⊢
      rcases pre with _ | ⟨a, _ | ⟨b, _ | ⟨c, _ | ⟨d, _ | ⟨d2, pre⟩⟩⟩⟩⟩ <;>
        simp [runCreateFailed] at h
      simp [← h.2.2.2, Event.isDatabaseCall, runCreateFailed]
    · rw [hm] at h ⊢
      rcases pre with _ | ⟨a, _ | ⟨b, _ | ⟨c, _ | ⟨d, _ | ⟨d2, pre⟩⟩⟩⟩⟩ <;>
        simp [runSucceeded] at h

/-- Witness for C2 at a world where `ent.Open` fails and one where
`Schema.Create` fails. -/
theorem main_error_is_fatal_witness :
    (main emptyProcess worldOpenFails).exitCode = 1 ∧
    (main emptyProcess worldCreateFails).trace =
      [Event.entOpen driverName dataSourceName,
       Event.schemaCreate Context.background createOptions,
       Event.logFatalf "failed creating schema resources: %v" ⟨"Error 1044: access denied"⟩,
       Event.osExit 1] :=
  ⟨((main_error_is_fatal emptyProcess worldOpenFails).1 _ rfl).2,
   ((main_error_is_fatal emptyProcess worldCreateFails).2.1 _ rfl rfl).1⟩

/-- C3: every `Schema.Create` call of every run has the background context and
the one option `WithForeignKeys(false)`, whatever the process can read and
whatever the external calls return; the call is made whenever `ent.Open`
succeeds; and the configuration these options denote has foreign keys off and
every other option at its default, the destructive one included. -/
theorem main_create_arguments_constant (os : Process) (w : World) :
    (∀ e ∈ (main os w).trace, e.isSchemaCreate = true →
      e = Event.schemaCreate Context.background [MigrateOption.WithForeignKeys false]) ∧
    (w.entOpen driverName dataSourceName = none →
      Event.schemaCreate Context.background [MigrateOption.WithForeignKeys false]
        ∈ (main os w).trace) ∧
    mainConfig = { defaultConfig with foreignKeys := false } ∧
    mainConfig.destructive = false := by
  refine ⟨?_, ?_, rfl, rfl⟩
  · intro e he hc
    rcases main_cases os w with ⟨err, _, hm⟩ | ⟨err, _, _, hm⟩ | ⟨_, _, hm⟩ <;>
      rw [hm] at he <;>
      simp [runOpenFailed, runCreateFailed, runSucceeded] at he <;>
      rcases he with rfl | rfl | rfl | rfl <;>
      simp_all [Event.isSchemaCreate, createOptions]
  · intro ho
    rcases main_cases os w with ⟨err, ho2, hm⟩ | ⟨err, _, _, hm⟩ | ⟨_, _, hm⟩
    · simp [ho] at ho2
    · simp [hm, runCreateFailed, createOptions]
    · simp [hm, runSucceeded, createOptions]

/-- Witness for C3 at a run that reaches `Schema.Create`. -/
theorem main_create_arguments_constant_witness :
    Event.schemaCreate Context.background [MigrateOption.WithForeignKeys false]
      ∈ (main busyProcess worldOk).trace :=
  (main_create_arguments_constant busyProcess worldOk).2.1 rfl

/-- C7: the `log.Println` of the success message happens once when both
`ent.Open` and `Schema.Create` returned no error and never otherwise; it is the
only `log.Println` of the program; when it happens the `Schema.Create` call
precedes it. The literal is the claimed text after a check-mark sign. -/
theorem main_success_message_iff_both_ok (os : Process) (w : World) :
    (main os w).trace.count (Event.logPrintln successMessage) =
      (if (w.entOpen driverName dataSourceName).isNone ∧
          (w.schemaCreate Context.background createOptions).isNone then 1 else 0) ∧
    (main os w).trace.countP Event.isLogPrintln =
      (main os w).trace.count (Event.logPrintln successMessage) ∧
    (Event.logPrintln successMessage ∈ (main os w).trace →
      occursBefore (Event.schemaCreate Context.background createOptions)
        (Event.logPrintln successMessage) (main os w).trace = true) ∧
    successMessage = "✅ " ++ "Database migration completed successfully!" := by
  refine ⟨?_, ?_, ?_, by decide⟩
  · rcases main_cases os w with ⟨err, ho, hm⟩ | ⟨err, ho, hc, hm⟩ | ⟨ho, hc, hm⟩
    · simp [hm, ho, runOpenFailed, List.count_cons]
    · simp [hm, ho, hc, runCreateFailed, List.count_cons]
    · simp [hm, ho, hc, runSucceeded, List.count_cons]
  · rcases main_cases os w with ⟨err, ho, hm⟩ | ⟨err, ho, hc, hm⟩ | ⟨ho, hc, hm⟩ <;>
      simp [hm, runOpenFailed, runCreateFailed, runSucceeded, List.count_cons,
        List.countP_cons, Event.isLogPrintln]
  · intro hmem
    rcases main_cases os w with ⟨err, ho, hm⟩ | ⟨err, ho, hc, hm⟩ | ⟨ho, hc, hm⟩
    · simp [hm, runOpenFailed] at hmem
    · simp [hm, runCreateFailed] at hmem
    · rw [hm]; simp [runSucceeded, occursBefore]

/-- Witness for C7 at the run where both calls succeed. -/
theorem main_success_message_iff_both_ok_witness :
    occursBefore (Event.schemaCreate Context.background createOptions)
      (Event.logPrintln successMessage) (main emptyProcess worldOk).trace = true :=
  (main_success_message_iff_both_ok emptyProcess worldOk).2.2.1 (by decide)

/-- C8: when both calls succeed `client.Close` runs exactly once, as the last
event, right after the success message, and nothing stays deferred; when
`ent.Open` succeeds and `Schema.Create` fails the run ends in `os.Exit(1)` with
`client.Close` still pending and never run; when `ent.Open` fails
`client.Close` is neither run nor deferred. -/
theorem main_close_only_on_success (os : Process) (w : World) :
    (w.entOpen driverName dataSourceName = none →
      w.schemaCreate Context.background createOptions = none →
      (main os w).trace.count Event.clientClose = 1 ∧
      (main os w).trace =
        [Event.entOpen driverName dataSourceName,
         Event.schemaCreate Context.background createOptions,
         Event.logPrintln successMessage, Event.clientClose] ∧
      occursBefore (Event.logPrintln successMessage) Event.clientClose (main os w).trace = true ∧
      (main os w).pending = [] ∧ (main os w).exitCode = 0) ∧
    (∀ err, w.entOpen driverName dataSourceName = none →
      w.schemaCreate Context.background createOptions = some err →
      (main os w).trace.count Event.clientClose = 0 ∧
      (main os w).pending = [Event.clientClose] ∧
      (main os w).trace.getLast? = some (Event.osExit 1) ∧
      Event.logFatalf createFailedFormat err ∈ (main os w).trace) ∧
    (∀ err, w.entOpen driverName dataSourceName = some err →
      (main os w).trace.count Event.clientClose = 0 ∧
      (main os w).pending = []) := by
  refine ⟨?_, ?_, ?_⟩
  · intro ho hc
    rw [main_of_success os w ho hc]
    simp [runSucceeded, occursBefore, List.count_cons]
  · intro err ho hc
    rw [main_of_create_failed os w err ho hc]
    simp [runCreateFailed, List.count_cons]
  · intro err ho
    rw [main_of_open_failed os w err ho]
    simp [runOpenFailed, List.count_cons]

/-- Witness for C8 at the three example worlds. -/
theorem main_close_only_on_success_witness :
    (main emptyProcess worldOk).trace.count Event.clientClose = 1 ∧
    (main emptyProcess worldCreateFails).pending = [Event.clientClose] ∧
    (main emptyProcess worldOpenFails).pending = [] :=
  ⟨((main_close_only_on_success emptyProcess worldOk).1 rfl rfl).1,
   ((main_close_only_on_success emptyProcess worldCreateFails).2.1 _ rfl rfl).2.1,
   ((main_close_only_on_success emptyProcess worldOpenFails).2.2 _ rfl).2⟩

/-- C9: the run does not depend on what the process can read, and two runs
whose `ent.Open` calls return the same result, and whose `Schema.Create` calls
return the same result when they are reached, are the same run: same calls,
same log messages, same exit code. Every run starts with `ent.Open` on the
constant driver name and data source, and has no other `ent.Open`. -/
theorem main_deterministic (os1 os2 : Process) (w1 w2 : World)
    (ho : w1.entOpen "mysql" "root:@tcp(127.0.0.1:3306)/simple_admin?parseTime=True" =
      w2.entOpen "mysql" "root:@tcp(127.0.0.1:3306)/simple_admin?parseTime=True")
    (hc : w1.entOpen "mysql" "root:@tcp(127.0.0.1:3306)/simple_admin?parseTime=True" = none →
      w1.schemaCreate Context.background [MigrateOption.WithForeignKeys false] =
        w2.schemaCreate Context.background [MigrateOption.WithForeignKeys false]) :
    main os1 w1 = main os2 w2 ∧
    (main os1 w1).trace.head? =
      some (Event.entOpen "mysql" "root:@tcp(127.0.0.1:3306)/simple_admin?parseTime=True") ∧
    (∀ e ∈ (main os1 w1).trace, e.isEntOpen = true →
      e = Event.entOpen "mysql" "root:@tcp(127.0.0.1:3306)/simple_admin?parseTime=True") := by
  have hd : driverName = "mysql" := rfl
  have hs : dataSourceName = "root:@tcp(127.0.0.1:3306)/simple_admin?parseTime=True" := rfl
  have hopt : createOptions = [MigrateOption.WithForeignKeys false] := rfl
  rw [← hd, ← hs] at ho hc ⊢
  rw [← hopt] at hc
  refine ⟨?_, ?_, ?_⟩
  · unfold main
    rw [← ho]
    cases h : w1.entOpen driverName dataSourceName with
    | some err => rfl
    | none => simp only [← hc h]
  · rcases main_cases os1 w1 with ⟨err, _, hm⟩ | ⟨err, _, _, hm⟩ | ⟨_, _, hm⟩ <;>
      simp [hm, runOpenFailed, runCreateFailed, runSucceeded]
  · intro e he hc
    rcases main_cases os1 w1 with ⟨err, _, hm⟩ | ⟨err, _, _, hm⟩ | ⟨_, _, hm⟩ <;>
      rw [hm] at he <;>
      simp [runOpenFailed, runCreateFailed, runSucceeded] at he <;>
      rcases he with rfl | rfl | rfl | rfl <;>
      simp_all [Event.isEntOpen]

/-- Witness for C9: two different processes and two different worlds that agree
on the calls `main` makes. -/
theorem main_deterministic_witness :
    main emptyProcess worldOk = main busyProcess worldOkForMainOnly :=
  (main_deterministic emptyProcess busyProcess worldOk worldOkForMainOnly
    (by decide) (fun _ => by decide)).1

end MigrateDb

/-! ## Theorems about the reconciliation engine -/

namespace MigrateDb

/-! ### Order of occurrence -/

theorem occursBefore_append {α : Type} [DecidableEq α] {a b : α} {l₁ l₂ : List α}
    (ha : a ∈ l₁) (hb : b ∈ l₂) : occursBefore a b (l₁ ++ l₂) = true := by
  induction l₁ with
  | nil => cases ha
  | cons x xs ih =>
    rw [List.cons_append]
    simp only [occursBefore, Bool.or_eq_true, Bool.and_eq_true, decide_eq_true_eq]
    rcases List.mem_cons.1 ha with rfl | h
    · exact Or.inl ⟨rfl, List.mem_append_right _ hb⟩
    · exact Or.inr (ih h)

/-! ### Name-keyed lists -/

theorem lookup_nil {α : Type} (key : α → String) (n : String) :
    lookup key ([] : List α) n = none := rfl

theorem lookup_cons {α : Type} (key : α → String) (x : α) (xs : List α) (n : String) :
    lookup key (x :: xs) n = if key x = n then some x else lookup key xs n := by
  unfold lookup
  by_cases h : key x = n <;> simp [List.find?_cons, h]

theorem lookup_key {α : Type} {key : α → String} {l : List α} {n : String} {x : α}
    (h : lookup key l n = some x) : key x = n := by
  unfold lookup at h
  have := List.find?_some h
  simpa using this

theorem lookup_mem {α : Type} {key : α → String} {l : List α} {n : String} {x : α}
    (h : lookup key l n = some x) : x ∈ l := by
  unfold lookup at h
  exact List.mem_of_find?_eq_some h

theorem lookup_eq_none {α : Type} {key : α → String} {l : List α} {n : String} :
    lookup key l n = none ↔ ∀ x ∈ l, key x ≠ n := by
  unfold lookup
  simp [List.find?_eq_none]

/-- An entry is kept by `firstByName` exactly when its name stands for it. -/
theorem mem_firstByName {α : Type} (key : α → String) (l : List α) (y : α) :
    y ∈ firstByName key l ↔ lookup key l (key y) = some y := by
  induction l with
  | nil => simp [firstByName, lookup_nil]
  | cons x xs ih =>
    rw [lookup_cons]
    by_cases h : key x = key y
    · simp only [firstByName, List.mem_cons, List.mem_filter, h, if_true, Option.some.injEq]
      constructor
      · rintro (rfl | ⟨_, hne⟩)
        · rfl
        · simp at hne
      · intro hxy
        exact Or.inl hxy.symm
    · simp only [firstByName, List.mem_cons, List.mem_filter, h, if_false, ih]
      constructor
      · rintro (rfl | ⟨hl, _⟩)
        · exact absurd rfl h
        · exact hl
      · intro hl
        refine Or.inr ⟨hl, ?_⟩
        simp only [bne_iff_ne, ne_eq]
        exact fun e => h e.symm

/-- The names of the entries `firstByName` keeps are pairwise different. -/
theorem firstByName_names_nodup {α : Type} (key : α → String) (l : List α) :
    ((firstByName key l).map key).Nodup := by
  induction l with
  | nil => simp [firstByName]
  | cons x xs ih =>
    simp only [firstByName, List.map_cons, List.nodup_cons, List.mem_map, List.mem_filter,
      bne_iff_ne, ne_eq, not_exists, not_and]
    refine ⟨?_, ?_⟩
    · rintro y ⟨_, hne⟩ he
      exact hne he
    · exact (ih.sublist ((List.filter_sublist _).map key))

theorem firstByName_nodup {α : Type} (key : α → String) (l : List α) :
    (firstByName key l).Nodup :=
  List.Nodup.of_map key (firstByName_names_nodup key l)

/-! ### Membership in the diff and in the plan -/

theorem mem_Diff {dia : Dialect} {destructive : Bool} {actual desired : SchemaModel}
    {x : Operation} :
    x ∈ Diff dia destructive actual desired ↔
      x ∈ diffUnordered dia destructive actual desired := by
  unfold Diff
  exact List.mem_insertionSort _

theorem mem_createdTables {diff : SchemaDiff} {t : TableSpec} :
    t ∈ createdTables diff ↔ Operation.CreateTable t ∈ diff := by
  unfold createdTables
  rw [List.mem_filterMap]
  constructor
  · rintro ⟨op, hop, h⟩
    cases op <;> simp at h
    subst h
    exact hop
  · intro h
    exact ⟨_, h, rfl⟩

theorem mem_ofKind {k : OperationKind} {diff : SchemaDiff} {x : Operation} :
    x ∈ ofKind k diff ↔ x ∈ diff ∧ x.kind = k := by
  simp [ofKind]

theorem mem_middlePhases {diff : SchemaDiff} {x : Operation} :
    x ∈ middlePhases diff ↔
      x ∈ diff ∧ x.kind ≠ OperationKind.createTable ∧ x.kind ≠ OperationKind.addForeignKey := by
  simp only [middlePhases, List.mem_append, mem_ofKind]
  constructor
  · rintro (((((((⟨h, k⟩ | ⟨h, k⟩) | ⟨h, k⟩) | ⟨h, k⟩) | ⟨h, k⟩) | ⟨h, k⟩) | ⟨h, k⟩)) <;>
      exact ⟨h, by simp [k]⟩
  · rintro ⟨h, h1, h2⟩
    cases x <;> simp_all [Operation.kind]

/-- A Drop or narrowing operation is neither a table creation nor a foreign-key
creation. -/
theorem isDestructive_kind {dia : Dialect} {x : Operation} (h : isDestructive dia x = true) :
    x.kind ≠ OperationKind.createTable ∧ x.kind ≠ OperationKind.addForeignKey := by
  cases x <;> simp_all [isDestructive, Operation.kind]

/-- The Planner keeps every Drop and narrowing operation of the diff. -/
theorem Plan_keeps_destructive {dia : Dialect} {foreignKeys : Bool} {diff : SchemaDiff}
    {plan : List Operation} {x : Operation} (hx : x ∈ diff)
    (hd : isDestructive dia x = true) (hp : Plan foreignKeys diff = Except.ok plan) :
    x ∈ plan := by
  have hm : x ∈ middlePhases diff := mem_middlePhases.2 ⟨hx, isDestructive_kind hd⟩
  unfold Plan at hp
  cases foreignKeys with
  | true =>
    simp only [if_true] at hp
    cases ht : topoSort (createdTables diff) with
    | none => simp [ht] at hp
    | some ordered =>
      simp only [ht, Except.ok.injEq] at hp
      subst hp
      simp [hm]
  | false =>
    simp only [Bool.false_eq_true, if_false, Except.ok.injEq] at hp
    subst hp
    simp [hm]

/-- The safety gate of `Apply`, for any operation sequence. -/
theorem Apply_blocked {dia : Dialect} (conn : Connection) {plan : List Operation}
    {options : Config} {x : Operation} (hflag : options.destructive = false)
    (hx : x ∈ plan) (hd : isDestructive dia x = true) :
    Apply dia conn plan options =
      (conn, failedBeforeSending
        (ErrorKind.DestructiveOperationBlockedError (plan.filter (isDestructive dia)))
        (plan.filter (isDestructive dia)).head?) := by
  have hne : (plan.filter (isDestructive dia)).isEmpty = false := by
    cases hf : plan.filter (isDestructive dia) with
    | nil =>
      have : x ∈ plan.filter (isDestructive dia) := List.mem_filter.2 ⟨hx, hd⟩
      rw [hf] at this
      cases this
    | cons _ _ => rfl
  unfold Apply
  simp [hflag, hne]

/-- The operations the safety gate is about are the four Drop kinds and the
column changes that are not widening. -/
theorem isDestructive_iff (dia : Dialect) (x : Operation) :
    isDestructive dia x = true ↔
      (x.kind = OperationKind.dropTable ∨ x.kind = OperationKind.dropColumn ∨
        x.kind = OperationKind.dropIndex ∨ x.kind = OperationKind.dropForeignKey ∨
        ∃ n old new, x = Operation.AlterColumnType n old new ∧ dia.widening old new = false) := by
  cases x <;> simp [isDestructive, Operation.kind]
  case AlterColumnType n old new =>
    constructor
    · intro h
      exact ⟨n, old, new, ⟨rfl, rfl, rfl⟩, h⟩
    · rintro ⟨_, _, _, ⟨_, rfl, rfl⟩, h⟩
      exact h

/-- C6: for an operation sequence with at least one Drop or narrowing
operation, `Apply` with `destructive: false` fails with
`DestructiveOperationBlockedError`, which names that operation, applies
nothing and leaves the connection as it was, so no statement is sent; the same
holds for every plan the Planner makes of such a diff. `destructive` defaults
to false, and it is false in the configuration `main` selects. -/
theorem Apply_safety_gate (dia : Dialect) (conn : Connection) (diff : SchemaDiff)
    (options : Config) (x : Operation) (hflag : options.destructive = false)
    (hx : x ∈ diff) (hd : isDestructive dia x = true) :
    ((Apply dia conn diff options).1 = conn ∧
      (Apply dia conn diff options).2.error =
        some (ErrorKind.DestructiveOperationBlockedError (diff.filter (isDestructive dia))) ∧
      (Apply dia conn diff options).2.appliedOperations = [] ∧
      x ∈ diff.filter (isDestructive dia)) ∧
    (∀ foreignKeys plan, Plan foreignKeys diff = Except.ok plan →
      (Apply dia conn plan options).1 = conn ∧
      (Apply dia conn plan options).2.error =
        some (ErrorKind.DestructiveOperationBlockedError (plan.filter (isDestructive dia))) ∧
      (Apply dia conn plan options).2.appliedOperations = [] ∧
      x ∈ plan.filter (isDestructive dia)) ∧
    defaultConfig.destructive = false ∧ mainConfig.destructive = false := by
  refine ⟨?_, ?_, rfl, rfl⟩
  · rw [Apply_blocked conn hflag hx hd]
    exact ⟨rfl, rfl, rfl, List.mem_filter.2 ⟨hx, hd⟩⟩
  · intro foreignKeys plan hp
    have hxp : x ∈ plan := Plan_keeps_destructive hx hd hp
    rw [Apply_blocked conn hflag hxp hd]
    exact ⟨rfl, rfl, rfl, List.mem_filter.2 ⟨hxp, hd⟩⟩

/-- Witness for C6: dropping a column under the configuration of `main`. -/
theorem Apply_safety_gate_witness :
    (Apply exampleDialect emptyDatabase
        [Operation.AddColumn "users" (textColumn "phone" true),
         Operation.DropColumn "users" legacyColumn] mainConfig).1 = emptyDatabase :=
  (Apply_safety_gate exampleDialect emptyDatabase
    [Operation.AddColumn "users" (textColumn "phone" true),
     Operation.DropColumn "users" legacyColumn] mainConfig
    (Operation.DropColumn "users" legacyColumn) rfl (by decide) rfl).1.1

/-- A desired table that the database lacks is created. -/
theorem CreateTable_mem_Diff (dia : Dialect) (destructive : Bool) {actual desired : SchemaModel}
    {t : TableSpec} (hd : findTable desired t.name = some t)
    (ha : findTable actual t.name = none) :
    Operation.CreateTable t ∈ Diff dia destructive actual desired := by
  rw [mem_Diff]
  unfold diffUnordered diffByName
  refine List.mem_append_left _ (List.mem_flatMap.2 ⟨t, ?_, ?_⟩)
  · exact (mem_firstByName TableSpec.name desired t).2 hd
  · have ha2 : lookup TableSpec.name actual t.name = none := ha
    simp [ha2, tableChange]

end MigrateDb

/-! ## Idempotence of the reconciliation cycle -/

namespace MigrateDb

/-! ### Comparison by name, one name at a time -/

/-- Membership in a comparison by name is decided by the two entries of the
operation's own name. -/
theorem mem_diffByName {α : Type} {key : α → String} {destructive : Bool}
    {desired actual : List α} {onDesired : α → Option α → List Operation}
    {onRemoved : α → Operation} (nameOf : Operation → String)
    (hD : ∀ d a x, (∀ b, a = some b → key b = key d) → x ∈ onDesired d a → nameOf x = key d)
    (hR : ∀ a, nameOf (onRemoved a) = key a) (x : Operation) :
    x ∈ diffByName key destructive desired actual onDesired onRemoved ↔
      x ∈ localDiff destructive onDesired onRemoved
        (lookup key desired (nameOf x)) (lookup key actual (nameOf x)) := by
  unfold diffByName
  rw [List.mem_append, List.mem_flatMap]
  constructor
  · rintro (⟨d, hd, hx⟩ | hx)
    · have hn := hD _ _ _ (fun b hb => lookup_key hb) hx
      rw [mem_firstByName] at hd
      rw [hn, hd]
      exact hx
    · cases destructive with
      | false => simp at hx
      | true =>
        simp only [if_true, List.mem_map, List.mem_filter, Option.isNone_iff_eq_none] at hx
        obtain ⟨a, ⟨ha, hnone⟩, rfl⟩ := hx
        rw [mem_firstByName] at ha
        rw [hR, hnone, ha]
        simp [localDiff]
  · intro hx
    cases hd : lookup key desired (nameOf x) with
    | some d =>
      rw [hd] at hx
      have hk := lookup_key hd
      left
      refine ⟨d, ?_, ?_⟩
      · rw [mem_firstByName, hk]
        exact hd
      · rw [hk]
        exact hx
    | none =>
      rw [hd] at hx
      cases ha : lookup key actual (nameOf x) with
      | none => rw [ha] at hx; simp [localDiff] at hx
      | some a =>
        rw [ha] at hx
        have hk := lookup_key ha
        cases destructive with
        | false => simp [localDiff] at hx
        | true =>
          simp only [localDiff, if_true, List.mem_singleton] at hx
          right
          simp only [if_true, List.mem_map, List.mem_filter, Option.isNone_iff_eq_none]
          refine ⟨a, ⟨?_, ?_⟩, hx.symm⟩
          · rw [mem_firstByName, hk]
            exact ha
          · rw [hk]
            exact hd

/-- Two kept entries with the same name are the same entry. -/
theorem firstByName_inj {α : Type} {key : α → String} {l : List α} {a b : α}
    (ha : a ∈ firstByName key l) (hb : b ∈ firstByName key l) (h : key a = key b) : a = b := by
  rw [mem_firstByName] at ha hb
  rw [h] at ha
  exact Option.some.inj (ha.symm.trans hb)

/-- A comparison by name has no repeated operation when the operations for
one name have none. -/
theorem nodup_diffByName {α : Type} {key : α → String} {destructive : Bool}
    {desired actual : List α} {onDesired : α → Option α → List Operation}
    {onRemoved : α → Operation} (nameOf : Operation → String)
    (hD : ∀ d a x, (∀ b, a = some b → key b = key d) → x ∈ onDesired d a → nameOf x = key d)
    (hR : ∀ a, nameOf (onRemoved a) = key a)
    (hN : ∀ d a, (onDesired d a).Nodup) :
    (diffByName key destructive desired actual onDesired onRemoved).Nodup := by
  unfold diffByName
  rw [List.nodup_append]
  refine ⟨?_, ?_, ?_⟩
  · rw [List.nodup_flatMap]
    refine ⟨fun d _ => hN _ _, ?_⟩
    have hp : List.Pairwise (fun a b => key a ≠ key b) (firstByName key desired) := by
      have := firstByName_names_nodup key desired
      rw [List.Nodup, List.pairwise_map] at this
      exact this
    refine hp.imp ?_
    intro a b hab x hxa hxb
    exact hab ((hD _ _ _ (fun b hb => lookup_key hb) hxa).symm.trans
      (hD _ _ _ (fun b hb => lookup_key hb) hxb))
  · cases destructive with
    | false => simp
    | true =>
      simp only [if_true]
      refine List.Nodup.map_on ?_ ((firstByName_nodup key actual).filter _)
      intro a ha b hb hab
      have hk : key a = key b := by rw [← hR a, ← hR b, hab]
      exact firstByName_inj (List.mem_of_mem_filter ha) (List.mem_of_mem_filter hb) hk
  · intro x hx1 hx2
    rw [List.mem_flatMap] at hx1
    obtain ⟨d, hd, hx⟩ := hx1
    cases destructive with
    | false => simp at hx2
    | true =>
      simp only [if_true, List.mem_map, List.mem_filter, Option.isNone_iff_eq_none] at hx2
      obtain ⟨a, ⟨_, hnone⟩, rfl⟩ := hx2
      rw [mem_firstByName] at hd
      have hk := hD _ _ _ (fun b hb => lookup_key hb) hx
      rw [hR] at hk
      rw [hk, hd] at hnone
      cases hnone

/-- When the actual list changes at one name only, and at that name the
operations change by losing `o`, the whole comparison changes by losing `o`. -/
theorem diffByName_step {α : Type} {key : α → String} {destructive : Bool}
    {desired actual actual' : List α} {onDesired : α → Option α → List Operation}
    {onRemoved : α → Operation} (nameOf : Operation → String)
    (hD : ∀ d a x, (∀ b, a = some b → key b = key d) → x ∈ onDesired d a → nameOf x = key d)
    (hR : ∀ a, nameOf (onRemoved a) = key a) (o : Operation)
    (hlook : ∀ n, n ≠ nameOf o → lookup key actual' n = lookup key actual n)
    (hloc : ∀ x, x ∈ localDiff destructive onDesired onRemoved
        (lookup key desired (nameOf o)) (lookup key actual' (nameOf o)) ↔
      (x ∈ localDiff destructive onDesired onRemoved
        (lookup key desired (nameOf o)) (lookup key actual (nameOf o)) ∧ x ≠ o))
    (x : Operation) :
    x ∈ diffByName key destructive desired actual' onDesired onRemoved ↔
      (x ∈ diffByName key destructive desired actual onDesired onRemoved ∧ x ≠ o) := by
  rw [mem_diffByName nameOf hD hR, mem_diffByName nameOf hD hR]
  by_cases h : nameOf x = nameOf o
  · rw [h]
    exact hloc x
  · rw [hlook _ h]
    constructor
    · intro hx
      exact ⟨hx, fun e => h (by rw [e])⟩
    · exact fun hx => hx.1

/-! ### Lookups after a change of the list -/

theorem lookup_append_single {α : Type} (key : α → String) (l : List α) (c : α) (n : String) :
    lookup key (l ++ [c]) n =
      (lookup key l n).or (if key c = n then some c else none) := by
  unfold lookup
  rw [List.find?_append]
  by_cases h : key c = n <;> simp [List.find?_cons, h]

theorem lookup_filter_ne {α : Type} (key : α → String) (l : List α) (m n : String) :
    lookup key (l.filter (fun x => key x != m)) n =
      if n = m then none else lookup key l n := by
  induction l with
  | nil => simp [lookup_nil]
  | cons x xs ih =>
    by_cases hx : key x = m
    · have : (key x != m) = false := by simp [hx]
      rw [List.filter_cons_of_neg (by simp [hx]), ih, lookup_cons]
      by_cases hn : n = m
      · simp [hn]
      · have : key x ≠ n := fun e => hn (e.symm.trans hx)
        simp [hn, this]
    · rw [List.filter_cons_of_pos (by simp [hx]), lookup_cons, lookup_cons, ih]
      by_cases hn : n = m
      · have : key x ≠ n := fun e => hx (e.trans hn)
        simp [hn, this]
        intro e
        exact absurd e hx
      · simp [hn]

theorem lookup_map_of_key {α : Type} (key : α → String) (g : α → α)
    (hg : ∀ x, key (g x) = key x) (l : List α) (n : String) :
    lookup key (l.map g) n = (lookup key l n).map g := by
  induction l with
  | nil => simp [lookup_nil]
  | cons x xs ih =>
    rw [List.map_cons, lookup_cons, lookup_cons, hg, ih]
    by_cases h : key x = n <;> simp [h]

theorem findTable_modifyTable (s : SchemaModel) (T : String) (f : TableSpec → TableSpec)
    (hf : ∀ t, (f t).name = t.name) (n : String) :
    findTable (modifyTable s T f) n =
      if n = T then (findTable s T).map f else findTable s n := by
  unfold findTable modifyTable
  rw [lookup_map_of_key]
  · by_cases h : n = T
    · subst h
      simp only [if_true]
      cases hl : lookup TableSpec.name s n with
      | none => rfl
      | some a =>
        have := lookup_key hl
        simp [this]
    · simp only [h, if_false]
      cases hl : lookup TableSpec.name s n with
      | none => rfl
      | some a =>
        have hk := lookup_key hl
        have : a.name ≠ T := fun e => h (hk.symm.trans e)
        simp [this]
  · intro x
    by_cases h : x.name = T <;> simp [h, hf]

/-! ### Names and kinds of the operations of a diff -/

theorem forall_mem_diffByName {α : Type} {key : α → String} {destructive : Bool}
    {desired actual : List α} {onDesired : α → Option α → List Operation}
    {onRemoved : α → Operation} (P : Operation → Prop)
    (hD : ∀ d a x, x ∈ onDesired d a → P x) (hR : ∀ a, P (onRemoved a))
    {x : Operation} (hx : x ∈ diffByName key destructive desired actual onDesired onRemoved) :
    P x := by
  unfold diffByName at hx
  rw [List.mem_append, List.mem_flatMap] at hx
  rcases hx with ⟨d, _, hx⟩ | hx
  · exact hD _ _ _ hx
  · cases destructive with
    | false => simp at hx
    | true =>
      simp only [if_true, List.mem_map] at hx
      obtain ⟨a, _, rfl⟩ := hx
      exact hR a

theorem diffByName_self {α : Type} {key : α → String} {destructive : Bool} {l : List α}
    {onDesired : α → Option α → List Operation} {onRemoved : α → Operation}
    (h : ∀ c, onDesired c (some c) = []) :
    diffByName key destructive l l onDesired onRemoved = [] := by
  unfold diffByName
  rw [List.append_eq_nil]
  constructor
  · rw [List.flatMap_eq_nil_iff]
    intro c hc
    rw [mem_firstByName] at hc
    rw [hc]
    exact h c
  · cases destructive with
    | false => rfl
    | true =>
      simp only [if_true, List.map_eq_nil_iff, List.filter_eq_nil_iff]
      intro a ha
      rw [mem_firstByName] at ha
      simp [ha]

theorem columnChange_facts {dia : Dialect} {destructive : Bool} {n : String} {c : ColumnSpec}
    {a : Option ColumnSpec} {x : Operation} (hx : x ∈ columnChange dia destructive n c a) :
    x.tableName = n ∧ x.objectName = c.name ∧
      (x.kind = OperationKind.addColumn ∨ x.kind = OperationKind.alterColumnType) := by
  cases a with
  | none =>
    simp only [columnChange, List.mem_singleton] at hx
    subst hx
    exact ⟨rfl, rfl, Or.inl rfl⟩
  | some old =>
    simp only [columnChange] at hx
    split at hx
    · simp only [List.mem_singleton] at hx
      subst hx
      exact ⟨rfl, rfl, Or.inr rfl⟩
    · cases hx

theorem indexChange_facts {n : String} {i : IndexSpec} {a : Option IndexSpec} {x : Operation}
    (ha : ∀ b, a = some b → b.name = i.name) (hx : x ∈ indexChange n i a) :
    x.tableName = n ∧ x.objectName = i.name ∧
      (x.kind = OperationKind.addIndex ∨ x.kind = OperationKind.dropIndex) := by
  cases a with
  | none =>
    simp only [indexChange, List.mem_singleton] at hx
    subst hx
    exact ⟨rfl, rfl, Or.inl rfl⟩
  | some old =>
    simp only [indexChange] at hx
    split at hx
    · cases hx
    · simp only [List.mem_cons, List.mem_singleton, List.mem_nil_iff, or_false] at hx
      rcases hx with rfl | rfl
      · exact ⟨rfl, ha old rfl, Or.inr rfl⟩
      · exact ⟨rfl, rfl, Or.inl rfl⟩

theorem foreignKeyChange_facts {n : String} {k : ForeignKeySpec} {a : Option ForeignKeySpec}
    {x : Operation} (ha : ∀ b, a = some b → b.name = k.name)
    (hx : x ∈ foreignKeyChange n k a) :
    x.tableName = n ∧ x.objectName = k.name ∧
      (x.kind = OperationKind.addForeignKey ∨ x.kind = OperationKind.dropForeignKey) := by
  cases a with
  | none =>
    simp only [foreignKeyChange, List.mem_singleton] at hx
    subst hx
    exact ⟨rfl, rfl, Or.inl rfl⟩
  | some old =>
    simp only [foreignKeyChange] at hx
    split at hx
    · cases hx
    · simp only [List.mem_cons, List.mem_singleton, List.mem_nil_iff, or_false] at hx
      rcases hx with rfl | rfl
      · exact ⟨rfl, ha old rfl, Or.inr rfl⟩
      · exact ⟨rfl, rfl, Or.inl rfl⟩

theorem mem_diffColumns_facts {dia : Dialect} {destructive : Bool} {a d : TableSpec}
    {x : Operation} (hx : x ∈ diffColumns dia destructive a d) :
    x.tableName = d.name ∧ isColumnKind x.kind := by
  refine forall_mem_diffByName (fun x => x.tableName = d.name ∧ isColumnKind x.kind) ?_ ?_ hx
  · intro c old y hy
    have := columnChange_facts hy
    exact ⟨this.1, this.2.2.elim Or.inl (fun h => Or.inr (Or.inl h))⟩
  · intro c
    exact ⟨rfl, Or.inr (Or.inr rfl)⟩

theorem mem_diffIndexes_facts {destructive : Bool} {a d : TableSpec}
    {x : Operation} (hx : x ∈ diffIndexes destructive a d) :
    x.tableName = d.name ∧ isIndexKind x.kind := by
  unfold diffIndexes diffByName at hx
  rw [List.mem_append, List.mem_flatMap] at hx
  rcases hx with ⟨i, _, hx⟩ | hx
  · cases hl : lookup IndexSpec.name a.indexes i.name with
    | none =>
      rw [hl] at hx
      simp only [indexChange, List.mem_singleton] at hx
      subst hx
      exact ⟨rfl, Or.inl rfl⟩
    | some old =>
      rw [hl] at hx
      have := indexChange_facts (fun b hb => by cases hb; exact lookup_key hl) hx
      exact ⟨this.1, this.2.2⟩
  · cases destructive with
    | false => simp at hx
    | true =>
      simp only [if_true, List.mem_map] at hx
      obtain ⟨i, _, rfl⟩ := hx
      exact ⟨rfl, Or.inr rfl⟩

theorem mem_diffForeignKeys_facts {destructive : Bool} {a d : TableSpec}
    {x : Operation} (hx : x ∈ diffForeignKeys destructive a d) :
    x.tableName = d.name ∧ isForeignKeyKind x.kind := by
  unfold diffForeignKeys diffByName at hx
  rw [List.mem_append, List.mem_flatMap] at hx
  rcases hx with ⟨k, _, hx⟩ | hx
  · cases hl : lookup ForeignKeySpec.name a.foreignKeys k.name with
    | none =>
      rw [hl] at hx
      simp only [foreignKeyChange, List.mem_singleton] at hx
      subst hx
      exact ⟨rfl, Or.inl rfl⟩
    | some old =>
      rw [hl] at hx
      have := foreignKeyChange_facts (fun b hb => by cases hb; exact lookup_key hl) hx
      exact ⟨this.1, this.2.2⟩
  · cases destructive with
    | false => simp at hx
    | true =>
      simp only [if_true, List.mem_map] at hx
      obtain ⟨k, _, rfl⟩ := hx
      exact ⟨rfl, Or.inr rfl⟩

theorem mem_diffTable_iff {dia : Dialect} {destructive : Bool} {a d : TableSpec}
    {x : Operation} :
    x ∈ diffTable dia destructive a d ↔
      (x ∈ diffColumns dia destructive a d ∨ x ∈ diffIndexes destructive a d ∨
        x ∈ diffForeignKeys destructive a d) := by
  simp [diffTable, or_assoc]

theorem mem_diffTable_facts {dia : Dialect} {destructive : Bool} {a d : TableSpec}
    {x : Operation} (hx : x ∈ diffTable dia destructive a d) :
    x.tableName = d.name ∧ x.kind ≠ OperationKind.createTable ∧
      x.kind ≠ OperationKind.dropTable := by
  rcases mem_diffTable_iff.1 hx with h | h | h
  · obtain ⟨h1, h2⟩ := mem_diffColumns_facts h
    refine ⟨h1, ?_, ?_⟩ <;> rcases h2 with h2 | h2 | h2 <;> simp [h2]
  · obtain ⟨h1, h2⟩ := mem_diffIndexes_facts h
    refine ⟨h1, ?_, ?_⟩ <;> rcases h2 with h2 | h2 <;> simp [h2]
  · obtain ⟨h1, h2⟩ := mem_diffForeignKeys_facts h
    refine ⟨h1, ?_, ?_⟩ <;> rcases h2 with h2 | h2 <;> simp [h2]

/-! ### One operation executed on a table present in both schemas -/

theorem mem_diffColumns_local {dia : Dialect} {destructive : Bool} {a d : TableSpec}
    (x : Operation) :
    x ∈ diffColumns dia destructive a d ↔
      x ∈ localDiff destructive (columnChange dia destructive d.name)
        (Operation.DropColumn d.name) (d.findColumn x.objectName)
        (a.findColumn x.objectName) := by
  unfold diffColumns TableSpec.findColumn
  refine mem_diffByName Operation.objectName ?_ ?_ x
  · intro _ _ _ _ hx
    exact (columnChange_facts hx).2.1
  · intro _
    rfl

theorem mem_diffIndexes_local {destructive : Bool} {a d : TableSpec} (x : Operation) :
    x ∈ diffIndexes destructive a d ↔
      x ∈ localDiff destructive (indexChange d.name) (Operation.DropIndex d.name)
        (d.findIndex x.objectName) (a.findIndex x.objectName) := by
  unfold diffIndexes TableSpec.findIndex
  refine mem_diffByName Operation.objectName ?_ ?_ x
  · intro _ _ _ ha hx
    exact (indexChange_facts ha hx).2.1
  · intro _
    rfl

theorem mem_diffForeignKeys_local {destructive : Bool} {a d : TableSpec} (x : Operation) :
    x ∈ diffForeignKeys destructive a d ↔
      x ∈ localDiff destructive (foreignKeyChange d.name) (Operation.DropForeignKey d.name)
        (d.findForeignKey x.objectName) (a.findForeignKey x.objectName) := by
  unfold diffForeignKeys TableSpec.findForeignKey
  refine mem_diffByName Operation.objectName ?_ ?_ x
  · intro _ _ _ ha hx
    exact (foreignKeyChange_facts ha hx).2.1
  · intro _
    rfl

theorem diffColumns_step {dia : Dialect} {destructive : Bool} {a a' d : TableSpec}
    (o : Operation)
    (hlook : ∀ n, n ≠ o.objectName → a'.findColumn n = a.findColumn n)
    (hloc : ∀ x, x ∈ localDiff destructive (columnChange dia destructive d.name)
        (Operation.DropColumn d.name) (d.findColumn o.objectName)
        (a'.findColumn o.objectName) ↔
      (x ∈ localDiff destructive (columnChange dia destructive d.name)
        (Operation.DropColumn d.name) (d.findColumn o.objectName)
        (a.findColumn o.objectName) ∧ x ≠ o)) (x : Operation) :
    x ∈ diffColumns dia destructive a' d ↔ (x ∈ diffColumns dia destructive a d ∧ x ≠ o) := by
  unfold diffColumns
  refine diffByName_step Operation.objectName ?_ ?_ o hlook hloc x
  · intro _ _ _ _ hx
    exact (columnChange_facts hx).2.1
  · intro _
    rfl

theorem diffIndexes_step {destructive : Bool} {a a' d : TableSpec} (o : Operation)
    (hlook : ∀ n, n ≠ o.objectName → a'.findIndex n = a.findIndex n)
    (hloc : ∀ x, x ∈ localDiff destructive (indexChange d.name) (Operation.DropIndex d.name)
        (d.findIndex o.objectName) (a'.findIndex o.objectName) ↔
      (x ∈ localDiff destructive (indexChange d.name) (Operation.DropIndex d.name)
        (d.findIndex o.objectName) (a.findIndex o.objectName) ∧ x ≠ o)) (x : Operation) :
    x ∈ diffIndexes destructive a' d ↔ (x ∈ diffIndexes destructive a d ∧ x ≠ o) := by
  unfold diffIndexes
  refine diffByName_step Operation.objectName ?_ ?_ o hlook hloc x
  · intro _ _ _ ha hx
    exact (indexChange_facts ha hx).2.1
  · intro _
    rfl

theorem diffForeignKeys_step {destructive : Bool} {a a' d : TableSpec} (o : Operation)
    (hlook : ∀ n, n ≠ o.objectName → a'.findForeignKey n = a.findForeignKey n)
    (hloc : ∀ x, x ∈ localDiff destructive (foreignKeyChange d.name)
        (Operation.DropForeignKey d.name)
        (d.findForeignKey o.objectName) (a'.findForeignKey o.objectName) ↔
      (x ∈ localDiff destructive (foreignKeyChange d.name) (Operation.DropForeignKey d.name)
        (d.findForeignKey o.objectName) (a.findForeignKey o.objectName) ∧ x ≠ o))
    (x : Operation) :
    x ∈ diffForeignKeys destructive a' d ↔ (x ∈ diffForeignKeys destructive a d ∧ x ≠ o) := by
  unfold diffForeignKeys
  refine diffByName_step Operation.objectName ?_ ?_ o hlook hloc x
  · intro _ _ _ ha hx
    exact (foreignKeyChange_facts ha hx).2.1
  · intro _
    rfl

/-- A column operation executed: only the column part of the table's diff
changes. -/
theorem diffTable_step_columns {dia : Dialect} {destructive : Bool} {a a' d : TableSpec}
    {o : Operation} (hi : a'.indexes = a.indexes) (hf : a'.foreignKeys = a.foreignKeys)
    (hk : isColumnKind o.kind)
    (hc : ∀ x, x ∈ diffColumns dia destructive a' d ↔
      (x ∈ diffColumns dia destructive a d ∧ x ≠ o)) (x : Operation) :
    x ∈ diffTable dia destructive a' d ↔ (x ∈ diffTable dia destructive a d ∧ x ≠ o) := by
  have h1 : diffIndexes destructive a' d = diffIndexes destructive a d := by
    unfold diffIndexes; rw [hi]
  have h2 : diffForeignKeys destructive a' d = diffForeignKeys destructive a d := by
    unfold diffForeignKeys; rw [hf]
  rw [mem_diffTable_iff, mem_diffTable_iff, h1, h2, hc]
  constructor
  · rintro (⟨h, hne⟩ | h | h)
    · exact ⟨Or.inl h, hne⟩
    · refine ⟨Or.inr (Or.inl h), ?_⟩
      rintro rfl
      rcases (mem_diffIndexes_facts h).2 with e | e <;> rcases hk with k | k | k <;>
        rw [e] at k <;> cases k
    · refine ⟨Or.inr (Or.inr h), ?_⟩
      rintro rfl
      rcases (mem_diffForeignKeys_facts h).2 with e | e <;> rcases hk with k | k | k <;>
        rw [e] at k <;> cases k
  · rintro ⟨h | h | h, hne⟩
    · exact Or.inl ⟨h, hne⟩
    · exact Or.inr (Or.inl h)
    · exact Or.inr (Or.inr h)

/-- An index operation executed: only the index part of the table's diff
changes. -/
theorem diffTable_step_indexes {dia : Dialect} {destructive : Bool} {a a' d : TableSpec}
    {o : Operation} (hc : a'.columns = a.columns) (hf : a'.foreignKeys = a.foreignKeys)
    (hk : isIndexKind o.kind)
    (hi : ∀ x, x ∈ diffIndexes destructive a' d ↔
      (x ∈ diffIndexes destructive a d ∧ x ≠ o)) (x : Operation) :
    x ∈ diffTable dia destructive a' d ↔ (x ∈ diffTable dia destructive a d ∧ x ≠ o) := by
  have h1 : diffColumns dia destructive a' d = diffColumns dia destructive a d := by
    unfold diffColumns; rw [hc]
  have h2 : diffForeignKeys destructive a' d = diffForeignKeys destructive a d := by
    unfold diffForeignKeys; rw [hf]
  rw [mem_diffTable_iff, mem_diffTable_iff, h1, h2, hi]
  constructor
  · rintro (h | ⟨h, hne⟩ | h)
    · refine ⟨Or.inl h, ?_⟩
      rintro rfl
      rcases (mem_diffColumns_facts h).2 with e | e | e <;> rcases hk with k | k <;>
        rw [e] at k <;> cases k
    · exact ⟨Or.inr (Or.inl h), hne⟩
    · refine ⟨Or.inr (Or.inr h), ?_⟩
      rintro rfl
      rcases (mem_diffForeignKeys_facts h).2 with e | e <;> rcases hk with k | k <;>
        rw [e] at k <;> cases k
  · rintro ⟨h | h | h, hne⟩
    · exact Or.inl h
    · exact Or.inr (Or.inl ⟨h, hne⟩)
    · exact Or.inr (Or.inr h)

/-- A foreign-key operation executed: only the foreign-key part of the table's
diff changes. -/
theorem diffTable_step_foreignKeys {dia : Dialect} {destructive : Bool} {a a' d : TableSpec}
    {o : Operation} (hc : a'.columns = a.columns) (hi : a'.indexes = a.indexes)
    (hk : isForeignKeyKind o.kind)
    (hf : ∀ x, x ∈ diffForeignKeys destructive a' d ↔
      (x ∈ diffForeignKeys destructive a d ∧ x ≠ o)) (x : Operation) :
    x ∈ diffTable dia destructive a' d ↔ (x ∈ diffTable dia destructive a d ∧ x ≠ o) := by
  have h1 : diffColumns dia destructive a' d = diffColumns dia destructive a d := by
    unfold diffColumns; rw [hc]
  have h2 : diffIndexes destructive a' d = diffIndexes destructive a d := by
    unfold diffIndexes; rw [hi]
  rw [mem_diffTable_iff, mem_diffTable_iff, h1, h2, hf]
  constructor
  · rintro (h | h | ⟨h, hne⟩)
    · refine ⟨Or.inl h, ?_⟩
      rintro rfl
      rcases (mem_diffColumns_facts h).2 with e | e | e <;> rcases hk with k | k <;>
        rw [e] at k <;> cases k
    · refine ⟨Or.inr (Or.inl h), ?_⟩
      rintro rfl
      rcases (mem_diffIndexes_facts h).2 with e | e <;> rcases hk with k | k <;>
        rw [e] at k <;> cases k
    · exact ⟨Or.inr (Or.inr h), hne⟩
  · rintro ⟨h | h | h, hne⟩
    · exact Or.inl h
    · exact Or.inr (Or.inl h)
    · exact Or.inr (Or.inr ⟨h, hne⟩)

theorem mem_diffColumns_of_kind {dia : Dialect} {destructive : Bool} {a d : TableSpec}
    {o : Operation} (ho : o ∈ diffTable dia destructive a d) (hk : isColumnKind o.kind) :
    o ∈ diffColumns dia destructive a d := by
  rcases mem_diffTable_iff.1 ho with h | h | h
  · exact h
  · rcases (mem_diffIndexes_facts h).2 with e | e <;> rcases hk with k | k | k <;>
      rw [e] at k <;> cases k
  · rcases (mem_diffForeignKeys_facts h).2 with e | e <;> rcases hk with k | k | k <;>
      rw [e] at k <;> cases k

theorem mem_diffIndexes_of_kind {dia : Dialect} {destructive : Bool} {a d : TableSpec}
    {o : Operation} (ho : o ∈ diffTable dia destructive a d) (hk : isIndexKind o.kind) :
    o ∈ diffIndexes destructive a d := by
  rcases mem_diffTable_iff.1 ho with h | h | h
  · rcases (mem_diffColumns_facts h).2 with e | e | e <;> rcases hk with k | k <;>
      rw [e] at k <;> cases k
  · exact h
  · rcases (mem_diffForeignKeys_facts h).2 with e | e <;> rcases hk with k | k <;>
      rw [e] at k <;> cases k

theorem mem_diffForeignKeys_of_kind {dia : Dialect} {destructive : Bool} {a d : TableSpec}
    {o : Operation} (ho : o ∈ diffTable dia destructive a d) (hk : isForeignKeyKind o.kind) :
    o ∈ diffForeignKeys destructive a d := by
  rcases mem_diffTable_iff.1 ho with h | h | h
  · rcases (mem_diffColumns_facts h).2 with e | e | e <;> rcases hk with k | k <;>
      rw [e] at k <;> cases k
  · rcases (mem_diffIndexes_facts h).2 with e | e <;> rcases hk with k | k <;>
      rw [e] at k <;> cases k
  · exact h

theorem columnChange_self (dia : Dialect) (destructive : Bool) (n : String) (c : ColumnSpec) :
    columnChange dia destructive n c (some c) = [] := by
  simp [columnChange, columnDiffers]

theorem diffTable_AddColumn {dia : Dialect} {destructive : Bool} {a d : TableSpec}
    {n : String} {c : ColumnSpec}
    (ho : Operation.AddColumn n c ∈ diffTable dia destructive a d)
    (hnone : a.findColumn c.name = none) (x : Operation) :
    x ∈ diffTable dia destructive { a with columns := a.columns ++ [c] } d ↔
      (x ∈ diffTable dia destructive a d ∧ x ≠ Operation.AddColumn n c) := by
  have hk : isColumnKind (Operation.AddColumn n c).kind := Or.inl rfl
  have hoc := mem_diffColumns_of_kind ho hk
  refine diffTable_step_columns ?_ ?_ hk (diffColumns_step _ ?_ ?_) x
  · rfl
  · rfl
  · intro m hm
    have hm2 : c.name ≠ m := fun e => hm e.symm
    show lookup ColumnSpec.name (a.columns ++ [c]) m = lookup ColumnSpec.name a.columns m
    rw [lookup_append_single]
    simp [hm2]
  · intro y
    rw [mem_diffColumns_local] at hoc
    simp only [Operation.objectName] at hoc ⊢
    have hnew : TableSpec.findColumn { a with columns := a.columns ++ [c] } c.name = some c := by
      show lookup ColumnSpec.name (a.columns ++ [c]) c.name = some c
      rw [lookup_append_single]
      have : lookup ColumnSpec.name a.columns c.name = none := hnone
      simp [this]
    rw [hnew]
    rw [hnone] at hoc ⊢
    cases hd : d.findColumn c.name with
    | none => rw [hd] at hoc; simp [localDiff] at hoc
    | some dc =>
      rw [hd] at hoc
      simp only [localDiff, columnChange, List.mem_singleton, Operation.AddColumn.injEq] at hoc
      obtain ⟨rfl, rfl⟩ := hoc
      simp [localDiff, columnChange, columnDiffers]

theorem lookup_map_replace {α : Type} (key : α → String) (l : List α) (c : α) (m : String) :
    lookup key (l.map (fun x => if key x == key c then c else x)) m =
      if m = key c then (lookup key l m).map (fun _ => c) else lookup key l m := by
  rw [lookup_map_of_key]
  · cases hl : lookup key l m with
    | none => simp
    | some x =>
      have hk := lookup_key hl
      by_cases h : m = key c
      · simp [h, hk ▸ h]
      · have : key x ≠ key c := fun e => h (hk.symm.trans e)
        simp [h, this]
  · intro x
    by_cases h : key x = key c <;> simp [h]

theorem diffTable_DropColumn {dia : Dialect} {destructive : Bool} {a d : TableSpec}
    {n : String} {c : ColumnSpec}
    (ho : Operation.DropColumn n c ∈ diffTable dia destructive a d) (x : Operation) :
    x ∈ diffTable dia destructive
        { a with columns := a.columns.filter (fun y => y.name != c.name) } d ↔
      (x ∈ diffTable dia destructive a d ∧ x ≠ Operation.DropColumn n c) := by
  have hk : isColumnKind (Operation.DropColumn n c).kind := Or.inr (Or.inr rfl)
  have hoc := mem_diffColumns_of_kind ho hk
  refine diffTable_step_columns ?_ ?_ hk (diffColumns_step _ ?_ ?_) x
  · rfl
  · rfl
  · intro m hm
    show lookup ColumnSpec.name (a.columns.filter (fun y => y.name != c.name)) m =
      lookup ColumnSpec.name a.columns m
    rw [lookup_filter_ne]
    simp only [Operation.objectName] at hm
    simp [hm]
  · intro y
    rw [mem_diffColumns_local] at hoc
    simp only [Operation.objectName] at hoc ⊢
    have hnew : TableSpec.findColumn
        { a with columns := a.columns.filter (fun y => y.name != c.name) } c.name = none := by
      show lookup ColumnSpec.name (a.columns.filter (fun y => y.name != c.name)) c.name = none
      rw [lookup_filter_ne]
      simp
    rw [hnew]
    cases hd : d.findColumn c.name with
    | some dc =>
      rw [hd] at hoc
      have := (columnChange_facts hoc).2.2
      simp [Operation.kind] at this
    | none =>
      rw [hd] at hoc
      cases ha : a.findColumn c.name with
      | none => rw [ha] at hoc; simp [localDiff] at hoc
      | some ac =>
        rw [ha] at hoc
        cases destructive with
        | false => simp [localDiff] at hoc
        | true =>
          simp only [localDiff, if_true, List.mem_singleton, Operation.DropColumn.injEq] at hoc
          obtain ⟨rfl, rfl⟩ := hoc
          simp [localDiff]

theorem diffTable_AlterColumnType {dia : Dialect} {destructive : Bool} {a d : TableSpec}
    {n : String} {old c : ColumnSpec}
    (ho : Operation.AlterColumnType n old c ∈ diffTable dia destructive a d) (x : Operation) :
    x ∈ diffTable dia destructive
        { a with columns := a.columns.map (fun y => if y.name == c.name then c else y) } d ↔
      (x ∈ diffTable dia destructive a d ∧ x ≠ Operation.AlterColumnType n old c) := by
  have hk : isColumnKind (Operation.AlterColumnType n old c).kind := Or.inr (Or.inl rfl)
  have hoc := mem_diffColumns_of_kind ho hk
  refine diffTable_step_columns ?_ ?_ hk (diffColumns_step _ ?_ ?_) x
  · rfl
  · rfl
  · intro m hm
    show lookup ColumnSpec.name (a.columns.map (fun y => if y.name == c.name then c else y)) m =
      lookup ColumnSpec.name a.columns m
    rw [lookup_map_replace]
    simp only [Operation.objectName] at hm
    simp [hm]
  · intro y
    rw [mem_diffColumns_local] at hoc
    simp only [Operation.objectName] at hoc ⊢
    cases hd : d.findColumn c.name with
    | none =>
      rw [hd] at hoc
      cases ha : a.findColumn c.name with
      | none => rw [ha] at hoc; simp [localDiff] at hoc
      | some ac =>
        rw [ha] at hoc
        cases destructive <;> simp [localDiff] at hoc
    | some dc =>
      rw [hd] at hoc
      cases ha : a.findColumn c.name with
      | none => rw [ha] at hoc; simp [localDiff, columnChange] at hoc
      | some ac =>
        rw [ha] at hoc
        have hnew : TableSpec.findColumn
            { a with columns := a.columns.map (fun y => if y.name == c.name then c else y) }
            c.name = some c := by
          show lookup ColumnSpec.name
            (a.columns.map (fun y => if y.name == c.name then c else y)) c.name = some c
          rw [lookup_map_replace]
          have : lookup ColumnSpec.name a.columns c.name = some ac := ha
          simp [this]
        rw [hnew]
        simp only [localDiff, columnChange] at hoc ⊢
        split at hoc
        · simp only [List.mem_singleton, Operation.AlterColumnType.injEq] at hoc
          obtain ⟨rfl, rfl, rfl⟩ := hoc
          rename_i hcond
          simp [hcond, columnDiffers]
        · cases hoc

theorem diffTable_AddIndex {dia : Dialect} {destructive : Bool} {a d : TableSpec}
    {n : String} {i : IndexSpec}
    (ho : Operation.AddIndex n i ∈ diffTable dia destructive a d)
    (hnone : a.findIndex i.name = none) (x : Operation) :
    x ∈ diffTable dia destructive { a with indexes := a.indexes ++ [i] } d ↔
      (x ∈ diffTable dia destructive a d ∧ x ≠ Operation.AddIndex n i) := by
  have hk : isIndexKind (Operation.AddIndex n i).kind := Or.inl rfl
  have hoc := mem_diffIndexes_of_kind ho hk
  refine diffTable_step_indexes ?_ ?_ hk (diffIndexes_step _ ?_ ?_) x
  · rfl
  · rfl
  · intro m hm
    have hm2 : i.name ≠ m := fun e => hm e.symm
    show lookup IndexSpec.name (a.indexes ++ [i]) m = lookup IndexSpec.name a.indexes m
    rw [lookup_append_single]
    simp [hm2]
  · intro y
    rw [mem_diffIndexes_local] at hoc
    simp only [Operation.objectName] at hoc ⊢
    have hnew : TableSpec.findIndex { a with indexes := a.indexes ++ [i] } i.name = some i := by
      show lookup IndexSpec.name (a.indexes ++ [i]) i.name = some i
      rw [lookup_append_single]
      have : lookup IndexSpec.name a.indexes i.name = none := hnone
      simp [this]
    rw [hnew]
    rw [hnone] at hoc ⊢
    cases hd : d.findIndex i.name with
    | none => rw [hd] at hoc; simp [localDiff] at hoc
    | some di =>
      rw [hd] at hoc
      simp only [localDiff, indexChange, List.mem_singleton, Operation.AddIndex.injEq] at hoc
      obtain ⟨rfl, rfl⟩ := hoc
      simp [localDiff, indexChange]

theorem diffTable_DropIndex {dia : Dialect} {destructive : Bool} {a d : TableSpec}
    {n : String} {i : IndexSpec}
    (ho : Operation.DropIndex n i ∈ diffTable dia destructive a d) (x : Operation) :
    x ∈ diffTable dia destructive
        { a with indexes := a.indexes.filter (fun y => y.name != i.name) } d ↔
      (x ∈ diffTable dia destructive a d ∧ x ≠ Operation.DropIndex n i) := by
  have hk : isIndexKind (Operation.DropIndex n i).kind := Or.inr rfl
  have hoc := mem_diffIndexes_of_kind ho hk
  refine diffTable_step_indexes ?_ ?_ hk (diffIndexes_step _ ?_ ?_) x
  · rfl
  · rfl
  · intro m hm
    show lookup IndexSpec.name (a.indexes.filter (fun y => y.name != i.name)) m =
      lookup IndexSpec.name a.indexes m
    rw [lookup_filter_ne]
    simp only [Operation.objectName] at hm
    simp [hm]
  · intro y
    rw [mem_diffIndexes_local] at hoc
    simp only [Operation.objectName] at hoc ⊢
    have hnew : TableSpec.findIndex
        { a with indexes := a.indexes.filter (fun y => y.name != i.name) } i.name = none := by
      show lookup IndexSpec.name (a.indexes.filter (fun y => y.name != i.name)) i.name = none
      rw [lookup_filter_ne]
      simp
    rw [hnew]
    cases ha : a.findIndex i.name with
    | none =>
      rw [ha] at hoc
      cases hd : d.findIndex i.name with
      | none => rw [hd] at hoc; simp [localDiff] at hoc
      | some di => rw [hd] at hoc; simp [localDiff, indexChange] at hoc
    | some ai =>
      rw [ha] at hoc
      cases hd : d.findIndex i.name with
      | none =>
        rw [hd] at hoc
        cases destructive with
        | false => simp [localDiff] at hoc
        | true =>
          simp only [localDiff, if_true, List.mem_singleton, Operation.DropIndex.injEq] at hoc
          obtain ⟨rfl, rfl⟩ := hoc
          simp [localDiff]
      | some di =>
        rw [hd] at hoc
        simp only [localDiff, indexChange] at hoc ⊢
        split at hoc
        · cases hoc
        · simp only [List.mem_cons, List.mem_singleton, Operation.DropIndex.injEq,
            List.mem_nil_iff, or_false, reduceCtorEq] at hoc
          obtain ⟨rfl, rfl⟩ := hoc
          rename_i hne
          simp [hne]
          constructor
          · rintro rfl
            simp
          · rintro ⟨h | h, h2⟩
            · exact absurd h h2
            · exact h

theorem diffTable_AddForeignKey {dia : Dialect} {destructive : Bool} {a d : TableSpec}
    {n : String} {k : ForeignKeySpec}
    (ho : Operation.AddForeignKey n k ∈ diffTable dia destructive a d)
    (hnone : a.findForeignKey k.name = none) (x : Operation) :
    x ∈ diffTable dia destructive { a with foreignKeys := a.foreignKeys ++ [k] } d ↔
      (x ∈ diffTable dia destructive a d ∧ x ≠ Operation.AddForeignKey n k) := by
  have hk : isForeignKeyKind (Operation.AddForeignKey n k).kind := Or.inl rfl
  have hoc := mem_diffForeignKeys_of_kind ho hk
  refine diffTable_step_foreignKeys ?_ ?_ hk (diffForeignKeys_step _ ?_ ?_) x
  · rfl
  · rfl
  · intro m hm
    have hm2 : k.name ≠ m := fun e => hm e.symm
    show lookup ForeignKeySpec.name (a.foreignKeys ++ [k]) m =
      lookup ForeignKeySpec.name a.foreignKeys m
    rw [lookup_append_single]
    simp [hm2]
  · intro y
    rw [mem_diffForeignKeys_local] at hoc
    simp only [Operation.objectName] at hoc ⊢
    have hnew : TableSpec.findForeignKey
        { a with foreignKeys := a.foreignKeys ++ [k] } k.name = some k := by
      show lookup ForeignKeySpec.name (a.foreignKeys ++ [k]) k.name = some k
      rw [lookup_append_single]
      have : lookup ForeignKeySpec.name a.foreignKeys k.name = none := hnone
      simp [this]
    rw [hnew]
    rw [hnone] at hoc ⊢
    cases hd : d.findForeignKey k.name with
    | none => rw [hd] at hoc; simp [localDiff] at hoc
    | some di =>
      rw [hd] at hoc
      simp only [localDiff, foreignKeyChange, List.mem_singleton,
        Operation.AddForeignKey.injEq] at hoc
      obtain ⟨rfl, rfl⟩ := hoc
      simp [localDiff, foreignKeyChange]

theorem diffTable_DropForeignKey {dia : Dialect} {destructive : Bool} {a d : TableSpec}
    {n : String} {k : ForeignKeySpec}
    (ho : Operation.DropForeignKey n k ∈ diffTable dia destructive a d) (x : Operation) :
    x ∈ diffTable dia destructive
        { a with foreignKeys := a.foreignKeys.filter (fun y => y.name != k.name) } d ↔
      (x ∈ diffTable dia destructive a d ∧ x ≠ Operation.DropForeignKey n k) := by
  have hk : isForeignKeyKind (Operation.DropForeignKey n k).kind := Or.inr rfl
  have hoc := mem_diffForeignKeys_of_kind ho hk
  refine diffTable_step_foreignKeys ?_ ?_ hk (diffForeignKeys_step _ ?_ ?_) x
  · rfl
  · rfl
  · intro m hm
    show lookup ForeignKeySpec.name (a.foreignKeys.filter (fun y => y.name != k.name)) m =
      lookup ForeignKeySpec.name a.foreignKeys m
    rw [lookup_filter_ne]
    simp only [Operation.objectName] at hm
    simp [hm]
  · intro y
    rw [mem_diffForeignKeys_local] at hoc
    simp only [Operation.objectName] at hoc ⊢
    have hnew : TableSpec.findForeignKey
        { a with foreignKeys := a.foreignKeys.filter (fun y => y.name != k.name) }
        k.name = none := by
      show lookup ForeignKeySpec.name
        (a.foreignKeys.filter (fun y => y.name != k.name)) k.name = none
      rw [lookup_filter_ne]
      simp
    rw [hnew]
    cases ha : a.findForeignKey k.name with
    | none =>
      rw [ha] at hoc
      cases hd : d.findForeignKey k.name with
      | none => rw [hd] at hoc; simp [localDiff] at hoc
      | some di => rw [hd] at hoc; simp [localDiff, foreignKeyChange] at hoc
    | some ai =>
      rw [ha] at hoc
      cases hd : d.findForeignKey k.name with
      | none =>
        rw [hd] at hoc
        cases destructive with
        | false => simp [localDiff] at hoc
        | true =>
          simp only [localDiff, if_true, List.mem_singleton, Operation.DropForeignKey.injEq] at hoc
          obtain ⟨rfl, rfl⟩ := hoc
          simp [localDiff]
      | some di =>
        rw [hd] at hoc
        simp only [localDiff, foreignKeyChange] at hoc ⊢
        split at hoc
        · cases hoc
        · simp only [List.mem_cons, List.mem_singleton, Operation.DropForeignKey.injEq,
            List.mem_nil_iff, or_false, reduceCtorEq] at hoc
          obtain ⟨rfl, rfl⟩ := hoc
          rename_i hne
          simp [hne]
          constructor
          · rintro rfl
            simp
          · rintro ⟨h | h, h2⟩
            · exact absurd h h2
            · exact h

/-! ### One operation executed on the schema -/

theorem expandOp_of_not_create (foreignKeys : Bool) {x : Operation}
    (h : x.kind ≠ OperationKind.createTable) : expandOp foreignKeys x = [x] := by
  cases x <;> first | rfl | exact absurd rfl h

theorem flatMap_expandOp_eq (foreignKeys : Bool) (l : List Operation)
    (h : ∀ x ∈ l, x.kind ≠ OperationKind.createTable) :
    l.flatMap (expandOp foreignKeys) = l := by
  induction l with
  | nil => rfl
  | cons x xs ih =>
    rw [List.flatMap_cons, expandOp_of_not_create foreignKeys (h x (List.mem_cons_self _ _)),
      ih (fun y hy => h y (List.mem_cons_of_mem _ hy))]
    rfl

theorem plannedChange_some (dia : Dialect) (options : Config) (d a : TableSpec) :
    plannedChange dia options d (some a) = diffTable dia options.destructive a d := by
  unfold plannedChange tableChange
  exact flatMap_expandOp_eq _ _ (fun x hx => (mem_diffTable_facts hx).2.1)

theorem mem_deferredForeignKeys {t : TableSpec} {x : Operation} :
    x ∈ deferredForeignKeys t ↔
      ∃ k, t.findForeignKey k.name = some k ∧ x = Operation.AddForeignKey t.name k := by
  unfold deferredForeignKeys
  rw [List.mem_map]
  constructor
  · rintro ⟨k, hk, rfl⟩
    exact ⟨k, (mem_firstByName _ _ k).1 hk, rfl⟩
  · rintro ⟨k, hk, rfl⟩
    exact ⟨k, (mem_firstByName _ _ k).2 hk, rfl⟩

theorem plannedChange_none (dia : Dialect) (options : Config) (d : TableSpec) :
    plannedChange dia options d none =
      if options.foreignKeys then [Operation.CreateTable d]
      else Operation.CreateTable (stripForeignKeys d) :: deferredForeignKeys d := by
  unfold plannedChange tableChange
  cases h : options.foreignKeys <;> simp [expandOp, h]

theorem plannedChange_tableName {dia : Dialect} {options : Config} {d : TableSpec}
    {a : Option TableSpec} {x : Operation} (hx : x ∈ plannedChange dia options d a) :
    x.tableName = d.name := by
  cases a with
  | some a =>
    rw [plannedChange_some] at hx
    exact (mem_diffTable_facts hx).1
  | none =>
    rw [plannedChange_none] at hx
    cases h : options.foreignKeys with
    | true =>
      simp only [h, if_true, List.mem_singleton] at hx
      subst hx
      rfl
    | false =>
      simp only [h, Bool.false_eq_true, if_false, List.mem_cons] at hx
      rcases hx with rfl | hx
      · rfl
      · obtain ⟨k, _, rfl⟩ := mem_deferredForeignKeys.1 hx
        rfl

theorem planned_eq (dia : Dialect) (options : Config) (actual desired : SchemaModel) :
    planned dia options actual desired =
      diffByName TableSpec.name options.destructive desired actual
        (plannedChange dia options) Operation.DropTable := by
  unfold planned diffUnordered diffByName
  rw [List.flatMap_append, List.flatMap_assoc]
  congr 1
  cases options.destructive with
  | false => rfl
  | true =>
    simp only [if_true]
    rw [List.flatMap_map]
    induction (List.filter (fun a => (lookup TableSpec.name desired a.name).isNone)
      (firstByName TableSpec.name actual)) with
    | nil => rfl
    | cons x xs ih =>
      rw [List.flatMap_cons, ih]
      rfl

theorem mem_planned_local {dia : Dialect} {options : Config} {actual desired : SchemaModel}
    (x : Operation) :
    x ∈ planned dia options actual desired ↔
      x ∈ localDiff options.destructive (plannedChange dia options) Operation.DropTable
        (findTable desired x.tableName) (findTable actual x.tableName) := by
  rw [planned_eq]
  unfold findTable
  refine mem_diffByName Operation.tableName ?_ ?_ x
  · intro _ _ _ _ hx
    exact plannedChange_tableName hx
  · intro _
    rfl

theorem planned_step {dia : Dialect} {options : Config} {actual actual' desired : SchemaModel}
    (o : Operation)
    (hlook : ∀ n, n ≠ o.tableName → findTable actual' n = findTable actual n)
    (hloc : ∀ x, x ∈ localDiff options.destructive (plannedChange dia options)
        Operation.DropTable (findTable desired o.tableName) (findTable actual' o.tableName) ↔
      (x ∈ localDiff options.destructive (plannedChange dia options)
        Operation.DropTable (findTable desired o.tableName) (findTable actual o.tableName) ∧
        x ≠ o)) (x : Operation) :
    x ∈ planned dia options actual' desired ↔ (x ∈ planned dia options actual desired ∧ x ≠ o) := by
  rw [planned_eq, planned_eq]
  refine diffByName_step Operation.tableName ?_ ?_ o hlook hloc x
  · intro _ _ _ _ hx
    exact plannedChange_tableName hx
  · intro _
    rfl

theorem diffTable_self (dia : Dialect) (destructive : Bool) (d : TableSpec) :
    diffTable dia destructive d d = [] := by
  unfold diffTable diffColumns diffIndexes diffForeignKeys
  rw [diffByName_self, diffByName_self, diffByName_self]
  · rfl
  · intro k; simp [foreignKeyChange]
  · intro i; simp [indexChange]
  · intro c; simp [columnChange, columnDiffers]

theorem mem_diffTable_strip {dia : Dialect} {destructive : Bool} {d : TableSpec}
    {y : Operation} :
    y ∈ diffTable dia destructive (stripForeignKeys d) d ↔ y ∈ deferredForeignKeys d := by
  have hc : diffColumns dia destructive (stripForeignKeys d) d = [] := by
    show diffByName ColumnSpec.name destructive d.columns d.columns _ _ = []
    exact diffByName_self (fun c => by simp [columnChange, columnDiffers])
  have hi : diffIndexes destructive (stripForeignKeys d) d = [] := by
    show diffByName IndexSpec.name destructive d.indexes d.indexes _ _ = []
    exact diffByName_self (fun i => by simp [indexChange])
  rw [mem_diffTable_iff, hc, hi, mem_diffForeignKeys_local, mem_deferredForeignKeys]
  have hs : (stripForeignKeys d).findForeignKey y.objectName = none := rfl
  rw [hs]
  simp only [List.not_mem_nil, false_or]
  cases hd : d.findForeignKey y.objectName with
  | none =>
    simp only [localDiff, List.not_mem_nil, false_iff, not_exists, not_and]
    rintro k hk rfl
    simp only [Operation.objectName] at hd
    rw [hd] at hk
    cases hk
  | some k =>
    simp only [localDiff, foreignKeyChange, List.mem_singleton]
    have hkn := lookup_key hd
    constructor
    · rintro rfl
      simp only [Operation.objectName] at hd
      exact ⟨k, hd, rfl⟩
    · rintro ⟨k2, hk2, rfl⟩
      simp only [Operation.objectName] at hd
      rw [hd] at hk2
      cases hk2
      rfl

theorem findTable_append_single (s : SchemaModel) (t : TableSpec) (n : String) :
    findTable (s ++ [t]) n = (findTable s n).or (if t.name = n then some t else none) :=
  lookup_append_single TableSpec.name s t n

theorem findTable_filter_ne (s : SchemaModel) (m n : String) :
    findTable (s.filter (fun x => x.name != m)) n = if n = m then none else findTable s n :=
  lookup_filter_ne TableSpec.name s m n

/-- Executing a planned operation removes it from what is still to be done and
changes nothing else: creating a table. -/
theorem planned_exec_CreateTable {dia : Dialect} {options : Config}
    {s s' desired : SchemaModel} {t : TableSpec}
    (ho : Operation.CreateTable t ∈ planned dia options s desired)
    (he : exec s (Operation.CreateTable t) = some s') (x : Operation) :
    x ∈ planned dia options s' desired ↔
      (x ∈ planned dia options s desired ∧ x ≠ Operation.CreateTable t) := by
  simp only [exec] at he
  split at he
  · rename_i hcond
    simp only [Bool.and_eq_true, Option.isNone_iff_eq_none] at hcond
    obtain ⟨⟨hnone, _⟩, _⟩ := hcond
    simp only [Option.some.injEq] at he
    subst he
    refine planned_step _ ?_ ?_ x
    · intro n hn
      simp only [Operation.tableName] at hn
      rw [findTable_append_single]
      have : t.name ≠ n := fun e => hn e.symm
      simp [this]
    · intro y
      rw [mem_planned_local] at ho
      simp only [Operation.tableName] at ho ⊢
      have hnew : findTable (s ++ [t]) t.name = some t := by
        rw [findTable_append_single, hnone]; simp
      rw [hnew]
      rw [hnone] at ho ⊢
      cases hd : findTable desired t.name with
      | none => rw [hd] at ho; simp [localDiff] at ho
      | some d =>
        rw [hd] at ho
        simp only [localDiff, plannedChange_none, plannedChange_some] at ho ⊢
        cases hfk : options.foreignKeys with
        | true =>
          simp only [hfk, if_true, List.mem_singleton, Operation.CreateTable.injEq] at ho ⊢
          subst ho
          rw [diffTable_self]
          simp
        | false =>
          simp only [hfk, Bool.false_eq_true, if_false, List.mem_cons,
            Operation.CreateTable.injEq] at ho ⊢
          rcases ho with rfl | ho
          · rw [mem_diffTable_strip]
            constructor
            · intro hy
              refine ⟨Or.inr hy, ?_⟩
              rintro rfl
              obtain ⟨k, _, hk⟩ := mem_deferredForeignKeys.1 hy
              cases hk
            · rintro ⟨h | h, hne⟩
              · exact absurd h hne
              · exact h
          · obtain ⟨k, _, hk⟩ := mem_deferredForeignKeys.1 ho
            cases hk
  · cases he

/-- Dropping a table. -/
theorem planned_exec_DropTable {dia : Dialect} {options : Config}
    {s s' desired : SchemaModel} {t : TableSpec}
    (ho : Operation.DropTable t ∈ planned dia options s desired)
    (he : exec s (Operation.DropTable t) = some s') (x : Operation) :
    x ∈ planned dia options s' desired ↔
      (x ∈ planned dia options s desired ∧ x ≠ Operation.DropTable t) := by
  simp only [exec] at he
  split at he
  · simp only [Option.some.injEq] at he
    subst he
    refine planned_step _ ?_ ?_ x
    · intro n hn
      simp only [Operation.tableName] at hn
      rw [findTable_filter_ne]
      simp [hn]
    · intro y
      rw [mem_planned_local] at ho
      simp only [Operation.tableName] at ho ⊢
      have hnew : findTable (s.filter (fun x => x.name != t.name)) t.name = none := by
        rw [findTable_filter_ne]; simp
      rw [hnew]
      cases hd : findTable desired t.name with
      | some d =>
        rw [hd] at ho
        cases ha : findTable s t.name with
        | none =>
          rw [ha] at ho
          simp only [localDiff, plannedChange_none] at ho
          cases hfk : options.foreignKeys with
          | true => simp [hfk] at ho
          | false =>
            simp only [hfk, Bool.false_eq_true, if_false, List.mem_cons, reduceCtorEq,
              false_or] at ho
            obtain ⟨k, _, hk⟩ := mem_deferredForeignKeys.1 ho
            cases hk
        | some a =>
          rw [ha] at ho
          simp only [localDiff, plannedChange_some] at ho
          exact absurd rfl (mem_diffTable_facts ho).2.2
      | none =>
        rw [hd] at ho
        cases ha : findTable s t.name with
        | none => rw [ha] at ho; simp [localDiff] at ho
        | some a =>
          rw [ha] at ho
          cases hdes : options.destructive with
          | false => simp [localDiff, hdes] at ho
          | true =>
            simp only [localDiff, hdes, if_true, List.mem_singleton,
              Operation.DropTable.injEq] at ho ⊢
            subst ho
            simp
  · cases he

/-- An operation on the parts of an existing table. -/
theorem planned_exec_modify {dia : Dialect} {options : Config} {s desired : SchemaModel}
    {n : String} {f : TableSpec → TableSpec} {a : TableSpec} {o : Operation}
    (ho : o ∈ planned dia options s desired) (hn : o.tableName = n)
    (ha : findTable s n = some a) (hf : ∀ t, (f t).name = t.name)
    (hk : o.kind ≠ OperationKind.dropTable)
    (hstep : ∀ d, o ∈ diffTable dia options.destructive a d →
      ∀ x, x ∈ diffTable dia options.destructive (f a) d ↔
        (x ∈ diffTable dia options.destructive a d ∧ x ≠ o)) (x : Operation) :
    x ∈ planned dia options (modifyTable s n f) desired ↔
      (x ∈ planned dia options s desired ∧ x ≠ o) := by
  refine planned_step _ ?_ ?_ x
  · intro m hm
    rw [hn] at hm
    rw [findTable_modifyTable s n f hf]
    simp [hm]
  · intro y
    rw [mem_planned_local] at ho
    rw [hn] at ho ⊢
    rw [findTable_modifyTable s n f hf]
    simp only [if_true]
    rw [ha] at ho ⊢
    simp only [Option.map_some']
    cases hd : findTable desired n with
    | none =>
      rw [hd] at ho
      cases hdes : options.destructive with
      | false => simp [localDiff, hdes] at ho
      | true =>
        simp only [localDiff, hdes, if_true, List.mem_singleton] at ho
        subst ho
        exact absurd rfl hk
    | some d =>
      rw [hd] at ho
      simp only [localDiff, plannedChange_some] at ho ⊢
      exact hstep d ho y

/-- Executing a planned operation removes it from what is still to be done and
changes nothing else. -/
theorem planned_exec {dia : Dialect} {options : Config} {s s' desired : SchemaModel}
    {o : Operation} (ho : o ∈ planned dia options s desired) (he : exec s o = some s')
    (x : Operation) :
    x ∈ planned dia options s' desired ↔ (x ∈ planned dia options s desired ∧ x ≠ o) := by
  cases o with
  | CreateTable t => exact planned_exec_CreateTable ho he x
  | DropTable t => exact planned_exec_DropTable ho he x
  | AddColumn n c =>
    simp only [exec] at he
    cases ha : findTable s n with
    | none => simp [ha] at he
    | some a =>
      simp only [ha] at he
      split at he
      · rename_i hcond
        simp only [Option.some.injEq] at he
        subst he
        refine planned_exec_modify ho rfl ha ?_ ?_ ?_ x
        · intro _; rfl
        · simp [Operation.kind]
        · exact fun d hd => diffTable_AddColumn hd (Option.isNone_iff_eq_none.1 hcond)
      · cases he
  | DropColumn n c =>
    simp only [exec] at he
    cases ha : findTable s n with
    | none => simp [ha] at he
    | some a =>
      simp only [ha] at he
      split at he
      · simp only [Option.some.injEq] at he
        subst he
        refine planned_exec_modify ho rfl ha ?_ ?_ ?_ x
        · intro _; rfl
        · simp [Operation.kind]
        · exact fun d hd => diffTable_DropColumn hd
      · cases he
  | AlterColumnType n old c =>
    simp only [exec] at he
    cases ha : findTable s n with
    | none => simp [ha] at he
    | some a =>
      simp only [ha] at he
      split at he
      · simp only [Option.some.injEq] at he
        subst he
        refine planned_exec_modify ho rfl ha ?_ ?_ ?_ x
        · intro _; rfl
        · simp [Operation.kind]
        · exact fun d hd => diffTable_AlterColumnType hd
      · cases he
  | AddIndex n i =>
    simp only [exec] at he
    cases ha : findTable s n with
    | none => simp [ha] at he
    | some a =>
      simp only [ha] at he
      split at he
      · rename_i hcond
        simp only [Option.some.injEq] at he
        subst he
        refine planned_exec_modify ho rfl ha ?_ ?_ ?_ x
        · intro _; rfl
        · simp [Operation.kind]
        · exact fun d hd => diffTable_AddIndex hd (Option.isNone_iff_eq_none.1 hcond)
      · cases he
  | DropIndex n i =>
    simp only [exec] at he
    cases ha : findTable s n with
    | none => simp [ha] at he
    | some a =>
      simp only [ha] at he
      split at he
      · simp only [Option.some.injEq] at he
        subst he
        refine planned_exec_modify ho rfl ha ?_ ?_ ?_ x
        · intro _; rfl
        · simp [Operation.kind]
        · exact fun d hd => diffTable_DropIndex hd
      · cases he
  | AddForeignKey n k =>
    simp only [exec] at he
    cases ha : findTable s n with
    | none => simp [ha] at he
    | some a =>
      simp only [ha] at he
      split at he
      · rename_i hcond
        simp only [Bool.and_eq_true, Option.isNone_iff_eq_none] at hcond
        simp only [Option.some.injEq] at he
        subst he
        refine planned_exec_modify ho rfl ha ?_ ?_ ?_ x
        · intro _; rfl
        · simp [Operation.kind]
        · exact fun d hd => diffTable_AddForeignKey hd hcond.1
      · cases he
  | DropForeignKey n k =>
    simp only [exec] at he
    cases ha : findTable s n with
    | none => simp [ha] at he
    | some a =>
      simp only [ha] at he
      split at he
      · simp only [Option.some.injEq] at he
        subst he
        refine planned_exec_modify ho rfl ha ?_ ?_ ?_ x
        · intro _; rfl
        · simp [Operation.kind]
        · exact fun d hd => diffTable_DropForeignKey hd
      · cases he

/-! ### No operation is planned twice -/

theorem nodup_columnChange (dia : Dialect) (destructive : Bool) (n : String) (c : ColumnSpec)
    (a : Option ColumnSpec) : (columnChange dia destructive n c a).Nodup := by
  cases a with
  | none => simp [columnChange]
  | some old =>
    simp only [columnChange]
    split <;> simp

theorem nodup_indexChange (n : String) (i : IndexSpec) (a : Option IndexSpec) :
    (indexChange n i a).Nodup := by
  cases a with
  | none => simp [indexChange]
  | some old =>
    simp only [indexChange]
    split <;> simp

theorem nodup_foreignKeyChange (n : String) (k : ForeignKeySpec) (a : Option ForeignKeySpec) :
    (foreignKeyChange n k a).Nodup := by
  cases a with
  | none => simp [foreignKeyChange]
  | some old =>
    simp only [foreignKeyChange]
    split <;> simp

theorem nodup_diffTable (dia : Dialect) (destructive : Bool) (a d : TableSpec) :
    (diffTable dia destructive a d).Nodup := by
  have hc : (diffColumns dia destructive a d).Nodup := by
    unfold diffColumns
    refine nodup_diffByName Operation.objectName ?_ ?_ ?_
    · intro _ _ _ _ hx
      exact (columnChange_facts hx).2.1
    · intro _
      rfl
    · intro c old
      exact nodup_columnChange _ _ _ _ _
  have hi : (diffIndexes destructive a d).Nodup := by
    unfold diffIndexes
    refine nodup_diffByName Operation.objectName ?_ ?_ ?_
    · intro _ _ _ ha hx
      exact (indexChange_facts ha hx).2.1
    · intro _
      rfl
    · intro i old
      exact nodup_indexChange _ _ _
  have hf : (diffForeignKeys destructive a d).Nodup := by
    unfold diffForeignKeys
    refine nodup_diffByName Operation.objectName ?_ ?_ ?_
    · intro _ _ _ ha hx
      exact (foreignKeyChange_facts ha hx).2.1
    · intro _
      rfl
    · intro k old
      exact nodup_foreignKeyChange _ _ _
  unfold diffTable
  rw [List.nodup_append, List.nodup_append]
  refine ⟨⟨hc, hi, ?_⟩, hf, ?_⟩
  · intro x h1 h2
    rcases (mem_diffColumns_facts h1).2 with e | e | e <;>
      rcases (mem_diffIndexes_facts h2).2 with k | k <;> rw [e] at k <;> cases k
  · intro x h1 h2
    rw [List.mem_append] at h1
    rcases h1 with h1 | h1
    · rcases (mem_diffColumns_facts h1).2 with e | e | e <;>
        rcases (mem_diffForeignKeys_facts h2).2 with k | k <;> rw [e] at k <;> cases k
    · rcases (mem_diffIndexes_facts h1).2 with e | e <;>
        rcases (mem_diffForeignKeys_facts h2).2 with k | k <;> rw [e] at k <;> cases k

theorem nodup_deferredForeignKeys (t : TableSpec) : (deferredForeignKeys t).Nodup := by
  unfold deferredForeignKeys
  refine List.Nodup.map ?_ (firstByName_nodup _ _)
  intro k1 k2 h
  cases h
  rfl

theorem nodup_plannedChange (dia : Dialect) (options : Config) (d : TableSpec)
    (a : Option TableSpec) : (plannedChange dia options d a).Nodup := by
  cases a with
  | some a =>
    rw [plannedChange_some]
    exact nodup_diffTable _ _ _ _
  | none =>
    rw [plannedChange_none]
    cases options.foreignKeys with
    | true => simp
    | false =>
      simp only [Bool.false_eq_true, if_false, List.nodup_cons]
      refine ⟨?_, nodup_deferredForeignKeys d⟩
      intro h
      obtain ⟨k, _, hk⟩ := mem_deferredForeignKeys.1 h
      cases hk

theorem nodup_planned (dia : Dialect) (options : Config) (actual desired : SchemaModel) :
    (planned dia options actual desired).Nodup := by
  rw [planned_eq]
  refine nodup_diffByName Operation.tableName ?_ ?_ ?_
  · intro _ _ _ _ hx
    exact plannedChange_tableName hx
  · intro _
    rfl
  · intro d a
    exact nodup_plannedChange _ _ _ _

/-! ### Running a plan to its end -/

theorem expandOp_ne_nil (foreignKeys : Bool) (x : Operation) : expandOp foreignKeys x ≠ [] := by
  cases x <;> simp [expandOp]
  split <;> simp

theorem diffUnordered_eq_nil_of_planned {dia : Dialect} {options : Config}
    {actual desired : SchemaModel} (h : planned dia options actual desired = []) :
    diffUnordered dia options.destructive actual desired = [] := by
  unfold planned at h
  rw [List.flatMap_eq_nil_iff] at h
  cases hl : diffUnordered dia options.destructive actual desired with
  | nil => rfl
  | cons x xs =>
    rw [hl] at h
    exact absurd (h x (List.mem_cons_self _ _)) (expandOp_ne_nil _ _)

/-- When the operations sent are exactly what is planned for the schema they
start from and none is refused, nothing is planned for the schema they end
in. -/
theorem runOperations_converges {dia : Dialect} {options : Config} {desired : SchemaModel} :
    ∀ (r : List Operation) (s : SchemaModel) (applied : List Operation),
      List.Perm r (planned dia options s desired) →
      (runOperations s applied r).failed = none →
      planned dia options (runOperations s applied r).live desired = [] := by
  intro r
  induction r with
  | nil =>
    intro s applied hp _
    exact (List.nil_perm.1 hp)
  | cons o r ih =>
    intro s applied hp hf
    have ho : o ∈ planned dia options s desired := hp.mem_iff.1 (List.mem_cons_self _ _)
    simp only [runOperations] at hf ⊢
    cases he : exec s o with
    | none => simp [he] at hf
    | some s' =>
      simp only [he] at hf ⊢
      refine ih s' _ ?_ hf
      have h1 : List.Perm r ((planned dia options s desired).erase o) := by
        have := hp.erase o
        rwa [List.erase_cons_head] at this
      refine h1.trans ?_
      refine (List.perm_ext_iff_of_nodup ((nodup_planned _ _ _ _).erase o)
        (nodup_planned _ _ _ _)).2 ?_
      intro x
      rw [(nodup_planned dia options s desired).mem_erase_iff, planned_exec ho he x]
      exact and_comm

/-! ### The plan is a rearrangement of what is planned -/

theorem count_ofKind (k : OperationKind) (l : List Operation) (x : Operation) :
    (ofKind k l).count x = if x.kind = k then l.count x else 0 := by
  unfold ofKind
  by_cases h : x.kind = k
  · rw [if_pos h, List.count_filter]
    simpa using h
  · rw [if_neg h, List.count_eq_zero]
    intro hx
    exact h (by simpa using (List.mem_filter.1 hx).2)

/-- The three phases of a plan hold every operation of the diff once. -/
theorem phases_perm (diff : SchemaDiff) :
    List.Perm (ofKind .createTable diff ++ middlePhases diff ++ ofKind .addForeignKey diff)
      diff := by
  rw [List.perm_iff_count]
  intro x
  simp only [middlePhases, List.count_append, count_ofKind]
  cases h : x.kind <;> simp

theorem createdTables_map (diff : SchemaDiff) :
    (createdTables diff).map Operation.CreateTable = ofKind .createTable diff := by
  induction diff with
  | nil => rfl
  | cons op rest ih =>
    cases op <;>
      simp [createdTables, ofKind, Operation.kind, List.filterMap_cons,
        List.filter_cons] at ih ⊢ <;>
      exact ih

theorem topoSortRounds_perm :
    ∀ (fuel : Nat) (remaining done out : List TableSpec),
      topoSortRounds fuel remaining done = some out → List.Perm out (done ++ remaining) := by
  intro fuel
  induction fuel with
  | zero =>
    intro remaining done out h
    cases remaining with
    | nil =>
      simp only [topoSortRounds, List.isEmpty_nil, if_true, Option.some.injEq] at h
      subst h
      simp
    | cons t ts => simp [topoSortRounds] at h
  | succ fuel ih =>
    intro remaining done out h
    cases remaining with
    | nil =>
      simp only [topoSortRounds, List.isEmpty_nil, if_true, Option.some.injEq] at h
      subst h
      simp
    | cons t ts =>
      simp only [topoSortRounds, List.isEmpty_cons, Bool.false_eq_true, if_false] at h
      split at h
      · cases h
      · have := ih _ _ _ h
        refine this.trans ?_
        rw [List.append_assoc]
        exact List.Perm.append_left _ (List.filter_append_perm _ _)

theorem topoSort_perm {tables out : List TableSpec} (h : topoSort tables = some out) :
    List.Perm out tables := by
  have := topoSortRounds_perm _ _ _ _ h
  simpa using this

theorem flatMap_expandOp_true (l : List Operation) : l.flatMap (expandOp true) = l := by
  induction l with
  | nil => rfl
  | cons x xs ih =>
    rw [List.flatMap_cons, ih]
    cases x <;> rfl

theorem flatMap_expandOp_ofKind_addForeignKey (foreignKeys : Bool) (diff : SchemaDiff) :
    (ofKind .addForeignKey diff).flatMap (expandOp foreignKeys) = ofKind .addForeignKey diff :=
  flatMap_expandOp_eq _ _ (fun x hx => by rw [(mem_ofKind.1 hx).2]; simp)

theorem flatMap_expandOp_middlePhases (foreignKeys : Bool) (diff : SchemaDiff) :
    (middlePhases diff).flatMap (expandOp foreignKeys) = middlePhases diff :=
  flatMap_expandOp_eq _ _ (fun _ hx => (mem_middlePhases.1 hx).2.1)

theorem flatMap_expandOp_created (diff : SchemaDiff) :
    List.Perm ((ofKind .createTable diff).flatMap (expandOp false))
      ((createdTables diff).map (fun t => Operation.CreateTable (stripForeignKeys t)) ++
        (createdTables diff).flatMap deferredForeignKeys) := by
  rw [← createdTables_map, List.flatMap_map]
  have h1 : (createdTables diff).map (fun t => Operation.CreateTable (stripForeignKeys t)) =
      (createdTables diff).flatMap (fun t => [Operation.CreateTable (stripForeignKeys t)]) := by
    induction createdTables diff with
    | nil => rfl
    | cons x xs ih => simp [ih]
  rw [h1]
  refine List.Perm.trans ?_ (List.flatMap_append_perm _ _ _).symm
  exact List.Perm.of_eq rfl

/-- A plan is a rearrangement of the planned operations of the schemas it was
made for. -/
theorem Plan_perm {dia : Dialect} {options : Config} {actual desired : SchemaModel}
    {plan : List Operation}
    (h : Plan options.foreignKeys (Diff dia options.destructive actual desired) =
      Except.ok plan) :
    List.Perm plan (planned dia options actual desired) := by
  have hsort : List.Perm (Diff dia options.destructive actual desired)
      (diffUnordered dia options.destructive actual desired) := List.perm_insertionSort _ _
  have hplanned : List.Perm (planned dia options actual desired)
      ((ofKind .createTable (Diff dia options.destructive actual desired) ++
        middlePhases (Diff dia options.destructive actual desired) ++
        ofKind .addForeignKey (Diff dia options.destructive actual desired)).flatMap
          (expandOp options.foreignKeys)) := by
    unfold planned
    exact ((phases_perm _).trans hsort).symm.flatMap_right _
  refine List.Perm.trans ?_ hplanned.symm
  rw [List.flatMap_append, List.flatMap_append, flatMap_expandOp_middlePhases,
    flatMap_expandOp_ofKind_addForeignKey]
  unfold Plan at h
  cases hfk : options.foreignKeys with
  | true =>
    rw [hfk] at h
    simp only [if_true] at h
    cases ht : topoSort (createdTables (Diff dia options.destructive actual desired)) with
    | none => simp [ht] at h
    | some ordered =>
      simp only [ht, Except.ok.injEq] at h
      subst h
      rw [flatMap_expandOp_true, ← createdTables_map]
      exact ((((topoSort_perm ht).map _).append_right _).append_right _)
  | false =>
    rw [hfk] at h
    simp only [Bool.false_eq_true, if_false, Except.ok.injEq] at h
    subst h
    have hc := flatMap_expandOp_created (Diff dia options.destructive actual desired)
    refine List.Perm.trans ?_ ((hc.symm.append_right _).append_right _)
    rw [List.perm_iff_count]
    intro x
    simp only [List.count_append]
    omega

/-! ### The full cycle -/

/-- What a cycle that ends without error and is no dry run has done. -/
theorem reconcile_success {dia : Dialect} {options : Config} {desired : SchemaModel}
    {conn : Connection} (hdry : options.dryRun = false)
    (hok : (reconcile dia options desired conn).2.error = none) :
    ∃ plan,
      Validate desired = none ∧ conn.readable = true ∧
      Plan options.foreignKeys (Diff dia options.destructive conn.live desired) =
        Except.ok plan ∧
      (runOperations conn.live [] plan).failed = none ∧
      (reconcile dia options desired conn).1.live = (runOperations conn.live [] plan).live ∧
      (reconcile dia options desired conn).1.readable = true := by
  have hrec : ∀ plan, Validate desired = none → conn.readable = true →
      Plan options.foreignKeys (Diff dia options.destructive conn.live desired) =
        Except.ok plan →
      reconcile dia options desired conn = Apply dia conn plan options := by
    intro plan hv hr hp
    unfold reconcile
    simp only [hv, Introspect, hr, if_true, hp]
  cases hv : Validate desired with
  | some e =>
    unfold reconcile at hok
    simp [hv, failedBeforeSending] at hok
  | none =>
    cases hr : conn.readable with
    | false =>
      unfold reconcile at hok
      simp [hv, Introspect, hr, failedBeforeSending] at hok
    | true =>
      cases hp : Plan options.foreignKeys (Diff dia options.destructive conn.live desired) with
      | error e =>
        unfold reconcile at hok
        simp [hv, Introspect, hr, hp, failedBeforeSending] at hok
      | ok plan =>
        rw [hrec plan hv hr hp] at hok ⊢
        refine ⟨plan, rfl, rfl, rfl, ?_⟩
        unfold Apply at hok ⊢
        simp only [hdry] at hok ⊢
        split at hok
        · simp [failedBeforeSending] at hok
        · rename_i hgate
          simp only [hgate, Bool.false_eq_true, if_false] at hok ⊢
          cases hf : (runOperations conn.live [] plan).failed with
          | none => simp [hf, hr]
          | some op =>
            simp only [hf] at hok
            split at hok <;> simp at hok

/-- A cycle against a database that already has nothing to change sends no DDL
statement and applies nothing. -/
theorem reconcile_of_empty_diff {dia : Dialect} {options : Config} {desired : SchemaModel}
    {conn : Connection} (hdry : options.dryRun = false) (hv : Validate desired = none)
    (hr : conn.readable = true)
    (hd : Diff dia options.destructive conn.live desired = []) :
    reconcile dia options desired conn =
      ({ conn with sent := conn.sent ++
          (if conn.transactionalDDL then [Statement.begin, Statement.commit] else []) },
       { appliedOperations := [], failedOperation := none, error := none,
         rolledBack := false, statements := [] }) := by
  have hplan : Plan options.foreignKeys ([] : SchemaDiff) = Except.ok [] := by
    unfold Plan
    cases options.foreignKeys <;> rfl
  unfold reconcile
  simp only [hv, Introspect, hr, if_true, hd, hplan]
  unfold Apply
  simp [hdry, hr, runOperations]

/-- C5: when a full cycle (Validate, Introspect, Diff, Plan, Apply) that is no
dry run ends without error, the database it leaves can be introspected, the
diff of its schema against the same desired schema is empty, and a second full
cycle ends without error, applies no operation, sends no DDL statement and
leaves the schema as it is. This holds for every desired schema, every
database, every dialect and every setting of `destructive` and
`foreignKeys`. -/
theorem reconcile_idempotent (dia : Dialect) (options : Config) (desired : SchemaModel)
    (conn : Connection) (hdry : options.dryRun = false)
    (hok : (reconcile dia options desired conn).2.error = none) :
    Introspect (reconcile dia options desired conn).1 =
      Except.ok (reconcile dia options desired conn).1.live ∧
    Diff dia options.destructive (reconcile dia options desired conn).1.live desired = [] ∧
    (reconcile dia options desired (reconcile dia options desired conn).1).2.error = none ∧
    (reconcile dia options desired
      (reconcile dia options desired conn).1).2.appliedOperations = [] ∧
    (reconcile dia options desired (reconcile dia options desired conn).1).1.live =
      (reconcile dia options desired conn).1.live ∧
    (reconcile dia options desired (reconcile dia options desired conn).1).1.sent.filter
        Statement.isDdl =
      (reconcile dia options desired conn).1.sent.filter Statement.isDdl := by
  obtain ⟨plan, hv, _, hp, hf, hlive, hr⟩ := reconcile_success hdry hok
  have hconv := runOperations_converges plan conn.live [] (Plan_perm hp) hf
  have hdiff : Diff dia options.destructive (reconcile dia options desired conn).1.live
      desired = [] := by
    rw [hlive]
    unfold Diff
    rw [diffUnordered_eq_nil_of_planned hconv]
    rfl
  have hsecond := reconcile_of_empty_diff hdry hv hr hdiff
  refine ⟨?_, hdiff, ?_, ?_, ?_, ?_⟩
  · simp [Introspect, hr]
  · rw [hsecond]
  · rw [hsecond]
  · rw [hsecond]
  · rw [hsecond]
    cases (reconcile dia options desired conn).1.transactionalDDL <;>
      simp [List.filter_append, Statement.isDdl]

/-- Witness for C5: the configuration of `main`, the example schema, an empty
database. -/
theorem reconcile_idempotent_witness :
    Diff exampleDialect mainConfig.destructive
      (reconcile exampleDialect mainConfig shopSchema emptyDatabase).1.live shopSchema = [] :=
  (reconcile_idempotent exampleDialect mainConfig shopSchema emptyDatabase rfl
    (by decide)).2.1

/-- The cycle also ends without error from a database that needs drops, a
narrowing column change and an index redefinition, when destructive changes are
allowed; the plan then holds six operations. -/
theorem reconcile_destructive_example :
    (reconcile exampleDialect destructiveConfig shopSchema legacyDatabase).2.error = none ∧
    (reconcile exampleDialect destructiveConfig shopSchema
      legacyDatabase).2.appliedOperations.length = 6 ∧
    (reconcile exampleDialect mainConfig shopSchema legacyDatabase).1 = legacyDatabase := by
  decide

/-- With foreign keys enabled the example schema is created in dependency
order: `users` before `orders`, which carries its foreign key. -/
theorem reconcile_foreignKeys_example :
    (reconcile exampleDialect defaultConfig shopSchema emptyDatabase).2.appliedOperations =
      [Operation.CreateTable usersTable, Operation.CreateTable ordersTable] := by
  decide

/-! ### Deferred foreign keys -/

theorem mem_diffUnordered_local {dia : Dialect} {destructive : Bool}
    {actual desired : SchemaModel} (x : Operation) :
    x ∈ diffUnordered dia destructive actual desired ↔
      x ∈ localDiff destructive (tableChange dia destructive) Operation.DropTable
        (findTable desired x.tableName) (findTable actual x.tableName) := by
  unfold diffUnordered findTable
  refine mem_diffByName Operation.tableName ?_ ?_ x
  · intro d a y _ hy
    cases a with
    | none =>
      simp only [tableChange, List.mem_singleton] at hy
      subst hy
      rfl
    | some a => exact (mem_diffTable_facts hy).1
  · intro _
    rfl

/-- A desired foreign key that the database does not have yet is in the diff,
as an `AddForeignKey` of its own when its table exists. -/
theorem AddForeignKey_mem_Diff (dia : Dialect) (destructive : Bool)
    {actual desired : SchemaModel} {B b : TableSpec} {k : ForeignKeySpec}
    (hB : findTable desired B.name = some B) (hk : B.findForeignKey k.name = some k)
    (hb : findTable actual B.name = some b) (hnew : b.findForeignKey k.name ≠ some k) :
    Operation.AddForeignKey B.name k ∈ Diff dia destructive actual desired := by
  rw [mem_Diff, mem_diffUnordered_local]
  simp only [Operation.tableName, hB, hb, localDiff, tableChange]
  rw [mem_diffTable_iff]
  refine Or.inr (Or.inr ?_)
  rw [mem_diffForeignKeys_local]
  simp only [Operation.objectName, hk, localDiff]
  cases hold : b.findForeignKey k.name with
  | none => simp [foreignKeyChange]
  | some old =>
    have : old ≠ k := fun e => hnew (by rw [hold, e])
    simp [foreignKeyChange, this]

/-- A foreign-key creation is planned only for a key that its name stands for
in its desired table. -/
theorem AddForeignKey_planned_first {dia : Dialect} {options : Config}
    {actual desired : SchemaModel} {n : String} {k : ForeignKeySpec}
    (h : Operation.AddForeignKey n k ∈ planned dia options actual desired) :
    ∃ d, findTable desired n = some d ∧ d.findForeignKey k.name = some k := by
  rw [mem_planned_local] at h
  simp only [Operation.tableName] at h
  cases hd : findTable desired n with
  | none =>
    rw [hd] at h
    cases ha : findTable actual n with
    | none => rw [ha] at h; simp [localDiff] at h
    | some a => rw [ha] at h; cases options.destructive <;> simp [localDiff] at h
  | some d =>
    rw [hd] at h
    refine ⟨d, rfl, ?_⟩
    cases ha : findTable actual n with
    | none =>
      rw [ha] at h
      simp only [localDiff, plannedChange_none] at h
      cases hfk : options.foreignKeys with
      | true => simp [hfk] at h
      | false =>
        simp only [hfk, Bool.false_eq_true, if_false, List.mem_cons, reduceCtorEq,
          false_or] at h
        obtain ⟨k', hk', he⟩ := mem_deferredForeignKeys.1 h
        cases he
        exact hk'
    | some a =>
      rw [ha] at h
      simp only [localDiff, plannedChange_some] at h
      have hf := mem_diffForeignKeys_of_kind h (Or.inl rfl)
      rw [mem_diffForeignKeys_local] at hf
      simp only [Operation.objectName] at hf
      cases hdk : d.findForeignKey k.name with
      | none =>
        rw [hdk] at hf
        cases hak : a.findForeignKey k.name with
        | none => rw [hak] at hf; simp [localDiff] at hf
        | some old => rw [hak] at hf; cases options.destructive <;> simp [localDiff] at hf
      | some dk =>
        rw [hdk] at hf
        cases hak : a.findForeignKey k.name with
        | none =>
          rw [hak] at hf
          simp only [localDiff, foreignKeyChange, List.mem_singleton,
            Operation.AddForeignKey.injEq] at hf
          rw [hf.2]
        | some old =>
          rw [hak] at hf
          simp only [localDiff, foreignKeyChange] at hf
          split at hf
          · cases hf
          · simp only [List.mem_cons, reduceCtorEq, Operation.AddForeignKey.injEq,
              List.mem_nil_iff, or_false, false_or] at hf
            rw [hf.2]

/-- C4, as amended: with foreign keys disabled, the mode the configuration of
`main` selects, the Planner always succeeds, and its plan is a block of table
creations without foreign keys, then the other operations, then a trailing
block of foreign-key creations. When desired table `B` has foreign key `k` to
desired table `A`, `k` is the first foreign key of its name in `B`, and the
database does not have `k` yet, the trailing block holds `AddForeignKey B k`:
the foreign key is deferred, not omitted. When the database lacks `A`, or `B`,
the leading block creates it, so the creation of the referenced table `A`
comes before the foreign key. A foreign key whose name an earlier foreign key
of its table carries is not planned: every `AddForeignKey` of the plan is for
the key its name stands for in its desired table. -/
theorem Plan_defers_foreign_keys (dia : Dialect) (destructive : Bool)
    (actual desired : SchemaModel) (A B : TableSpec) (k : ForeignKeySpec)
    (hA : findTable desired A.name = some A) (hB : findTable desired B.name = some B)
    (hk : B.findForeignKey k.name = some k) (href : k.refTable = A.name)
    (hnew : ∀ b, findTable actual B.name = some b → b.findForeignKey k.name ≠ some k) :
    mainConfig.foreignKeys = false ∧
    ∃ creates middle trailing,
      Plan false (Diff dia destructive actual desired) =
        Except.ok (creates ++ middle ++ trailing) ∧
      (∀ op ∈ creates, ∃ t, op = Operation.CreateTable t ∧ t.foreignKeys = []) ∧
      (∀ op ∈ middle, op.kind ≠ OperationKind.createTable ∧
        op.kind ≠ OperationKind.addForeignKey) ∧
      (∀ op ∈ trailing, op.kind = OperationKind.addForeignKey) ∧
      Operation.AddForeignKey B.name k ∈ trailing ∧
      (findTable actual k.refTable = none →
        Operation.CreateTable (stripForeignKeys A) ∈ creates ∧
        occursBefore (Operation.CreateTable (stripForeignKeys A))
          (Operation.AddForeignKey B.name k) (creates ++ middle ++ trailing) = true) ∧
      (findTable actual B.name = none →
        Operation.CreateTable (stripForeignKeys B) ∈ creates) ∧
      (∀ n k', Operation.AddForeignKey n k' ∈ creates ++ middle ++ trailing →
        ∃ d, findTable desired n = some d ∧ d.findForeignKey k'.name = some k') := by
  have hfk : Operation.AddForeignKey B.name k ∈
      ofKind .addForeignKey (Diff dia destructive actual desired) ++
        (createdTables (Diff dia destructive actual desired)).flatMap deferredForeignKeys := by
    rw [List.mem_append]
    cases hb : findTable actual B.name with
    | none =>
      refine Or.inr (List.mem_flatMap.2 ⟨B, ?_, ?_⟩)
      · exact mem_createdTables.2 (CreateTable_mem_Diff dia destructive hB hb)
      · exact mem_deferredForeignKeys.2 ⟨k, hk, rfl⟩
    | some b =>
      exact Or.inl (mem_ofKind.2
        ⟨AddForeignKey_mem_Diff dia destructive hB hk hb (hnew b hb), rfl⟩)
  refine ⟨rfl, _, _, _, rfl, ?_, ?_, ?_, hfk, ?_, ?_, ?_⟩
  · intro op hop
    rw [List.mem_map] at hop
    obtain ⟨t, _, rfl⟩ := hop
    exact ⟨_, rfl, rfl⟩
  · intro op hop
    exact (mem_middlePhases.1 hop).2
  · intro op hop
    rw [List.mem_append] at hop
    rcases hop with hop | hop
    · exact (mem_ofKind.1 hop).2
    · rw [List.mem_flatMap] at hop
      obtain ⟨t, _, ht⟩ := hop
      obtain ⟨_, _, rfl⟩ := mem_deferredForeignKeys.1 ht
      rfl
  · intro hnewA
    rw [href] at hnewA
    have hc : Operation.CreateTable (stripForeignKeys A) ∈
        (createdTables (Diff dia destructive actual desired)).map
          (fun t => Operation.CreateTable (stripForeignKeys t)) :=
      List.mem_map.2
        ⟨A, mem_createdTables.2 (CreateTable_mem_Diff dia destructive hA hnewA), rfl⟩
    refine ⟨hc, ?_⟩
    rw [List.append_assoc]
    exact occursBefore_append hc (List.mem_append_right _ hfk)
  · intro hnewB
    exact List.mem_map.2
      ⟨B, mem_createdTables.2 (CreateTable_mem_Diff dia destructive hB hnewB), rfl⟩
  · intro n k' hmem
    have hperm := @Plan_perm dia
      { destructive := destructive, foreignKeys := false, dryRun := false, timeout := none }
      actual desired _ rfl
    exact AddForeignKey_planned_first (hperm.mem_iff.1 hmem)

/-- Witness for C4: `orders` references `users`, both new, `orders` declared
first. -/
theorem Plan_defers_foreign_keys_witness :
    ∃ creates middle trailing,
      Plan false (Diff exampleDialect false [] shopSchema) =
        Except.ok (creates ++ middle ++ trailing) ∧
      (∀ op ∈ creates, ∃ t, op = Operation.CreateTable t ∧ t.foreignKeys = []) ∧
      (∀ op ∈ middle, op.kind ≠ OperationKind.createTable ∧
        op.kind ≠ OperationKind.addForeignKey) ∧
      (∀ op ∈ trailing, op.kind = OperationKind.addForeignKey) ∧
      Operation.AddForeignKey ordersTable.name ordersUserKey ∈ trailing ∧
      (findTable [] ordersUserKey.refTable = none →
        Operation.CreateTable (stripForeignKeys usersTable) ∈ creates ∧
        occursBefore (Operation.CreateTable (stripForeignKeys usersTable))
          (Operation.AddForeignKey ordersTable.name ordersUserKey)
          (creates ++ middle ++ trailing) = true) ∧
      (findTable [] ordersTable.name = none →
        Operation.CreateTable (stripForeignKeys ordersTable) ∈ creates) ∧
      (∀ n k', Operation.AddForeignKey n k' ∈ creates ++ middle ++ trailing →
        ∃ d, findTable shopSchema n = some d ∧ d.findForeignKey k'.name = some k') :=
  (Plan_defers_foreign_keys exampleDialect false [] shopSchema usersTable ordersTable
    ordersUserKey (by decide) (by decide) (by decide) (by decide)
    (fun _ h => Option.noConfusion h)).2

/-- Counterexample to C4 as stated: table `items` has a foreign key to
`parents` and a foreign key to `owners`, both named `items_ref`. The schema
passes validation and `owners` is created in the plan made with foreign keys
disabled, but the plan holds no `AddForeignKey` for the key to `owners`: that
key is omitted, not deferred. The cycle under the configuration of `main` ends
without error. -/
theorem Plan_omits_repeated_name_foreign_key :
    Validate repeatedKeySchema = none ∧
    itemsTable ∈ repeatedKeySchema ∧ ownersTable ∈ repeatedKeySchema ∧
    itemsOwnerKey ∈ itemsTable.foreignKeys ∧ itemsOwnerKey.refTable = ownersTable.name ∧
    (reconcile exampleDialect mainConfig repeatedKeySchema emptyDatabase).2.error = none ∧
    ∃ plan,
      Plan mainConfig.foreignKeys
        (Diff exampleDialect mainConfig.destructive [] repeatedKeySchema) = Except.ok plan ∧
      Operation.CreateTable (stripForeignKeys ownersTable) ∈ plan ∧
      Operation.AddForeignKey itemsTable.name itemsParentKey ∈ plan ∧
      Operation.AddForeignKey itemsTable.name itemsOwnerKey ∉ plan :=
  ⟨by decide, by decide, by decide, by decide, by decide, by decide, _, rfl, by decide⟩

/-- The plan of the example under the configuration of `main`, as executed on
an empty database: both tables without foreign keys, then the foreign key. -/
theorem reconcile_main_example :
    (reconcile exampleDialect mainConfig shopSchema emptyDatabase).2.appliedOperations =
      [Operation.CreateTable (stripForeignKeys ordersTable),
       Operation.CreateTable (stripForeignKeys usersTable),
       Operation.AddForeignKey "orders" ordersUserKey] := by
  decide

end MigrateDb

/-! ## Convergence on an empty database with foreign keys deferred -/

namespace MigrateDb

theorem findTable_map_strip (l : List TableSpec) (n : String) :
    findTable (l.map stripForeignKeys) n = (findTable l n).map stripForeignKeys :=
  lookup_map_of_key TableSpec.name stripForeignKeys (fun _ => rfl) l n

theorem findTable_isSome_of_mem {l : List TableSpec} {t : TableSpec} (h : t ∈ l) :
    (findTable l t.name).isSome = true := by
  cases hl : findTable l t.name with
  | some a => rfl
  | none => exact absurd rfl (lookup_eq_none.1 hl t h)

/-- Creating, without foreign keys, tables that are new and have unique column
and index names succeeds one after the other. -/
theorem runOperations_creates :
    ∀ (C : List TableSpec) (s : SchemaModel) (applied rest : List Operation),
      (C.map TableSpec.name).Nodup →
      (∀ t ∈ C, findTable s t.name = none) →
      (∀ t ∈ C, namesUnique ColumnSpec.name t.columns = true ∧
        namesUnique IndexSpec.name t.indexes = true) →
      runOperations s applied
          (C.map (fun t => Operation.CreateTable (stripForeignKeys t)) ++ rest) =
        runOperations (s ++ C.map stripForeignKeys)
          (applied ++ C.map (fun t => Operation.CreateTable (stripForeignKeys t))) rest := by
  intro C
  induction C with
  | nil => intro s applied rest _ _ _; simp
  | cons t ts ih =>
    intro s applied rest hnd hnew hwf
    rw [List.map_cons, List.nodup_cons] at hnd
    have ht := hnew t (List.mem_cons_self _ _)
    have hw := hwf t (List.mem_cons_self _ _)
    have he : exec s (Operation.CreateTable (stripForeignKeys t)) =
        some (s ++ [stripForeignKeys t]) := by
      have h1 : findTable s (stripForeignKeys t).name = none := ht
      have h2 : tableWellFormed (stripForeignKeys t) = true := by
        simp only [tableWellFormed, Bool.and_eq_true]
        exact ⟨⟨hw.1, hw.2⟩, by simp [stripForeignKeys, namesUnique]⟩
      have hc : ((findTable s (stripForeignKeys t).name).isNone &&
          tableWellFormed (stripForeignKeys t) &&
          (stripForeignKeys t).foreignKeys.all
            (referenceExists s (stripForeignKeys t).name)) = true := by
        rw [h1, h2]
        simp [stripForeignKeys]
      simp only [exec, hc, if_true]
    rw [List.map_cons, List.cons_append]
    simp only [runOperations, he]
    rw [ih (s ++ [stripForeignKeys t]) _ rest hnd.2]
    · simp [List.append_assoc]
    · intro u hu
      rw [findTable_append_single, hnew u (List.mem_cons_of_mem _ hu)]
      have : t.name ≠ u.name := by
        intro e
        exact hnd.1 (List.mem_map.2 ⟨u, hu, e.symm⟩)
      simp [stripForeignKeys, this]
    · intro u hu
      exact hwf u (List.mem_cons_of_mem _ hu)

theorem findTable_modifyTable_isSome (s : SchemaModel) (T : String) (f : TableSpec → TableSpec)
    (hf : ∀ t, (f t).name = t.name) (n : String) :
    (findTable (modifyTable s T f) n).isSome = (findTable s n).isSome := by
  rw [findTable_modifyTable s T f hf]
  by_cases h : n = T
  · subst h
    simp
  · simp [h]

/-- Adding foreign keys succeeds one after the other when their tables and the
tables they reference exist, no table has a foreign key of the same name yet,
and no two of them have the same table and name. -/
theorem runOperations_addForeignKeys :
    ∀ (F : List (String × ForeignKeySpec)) (s : SchemaModel) (applied : List Operation),
      (F.map (fun p => (p.1, p.2.name))).Nodup →
      (∀ p ∈ F, ∃ a, findTable s p.1 = some a ∧ a.findForeignKey p.2.name = none) →
      (∀ p ∈ F, referenceExists s p.1 p.2 = true) →
      (runOperations s applied
        (F.map (fun p => Operation.AddForeignKey p.1 p.2))).failed = none := by
  intro F
  induction F with
  | nil => intro s applied _ _ _; rfl
  | cons p ps ih =>
    intro s applied hnd hex href
    rw [List.map_cons, List.nodup_cons] at hnd
    obtain ⟨a, ha, hnone⟩ := hex p (List.mem_cons_self _ _)
    have hr := href p (List.mem_cons_self _ _)
    have he : exec s (Operation.AddForeignKey p.1 p.2) =
        some (modifyTable s p.1
          (fun t => { t with foreignKeys := t.foreignKeys ++ [p.2] })) := by
      simp [exec, ha, hnone, hr]
    rw [List.map_cons]
    simp only [runOperations, he]
    have hft := findTable_modifyTable s p.1
      (fun t => { t with foreignKeys := t.foreignKeys ++ [p.2] }) (fun _ => rfl)
    have hfs := findTable_modifyTable_isSome s p.1
      (fun t => { t with foreignKeys := t.foreignKeys ++ [p.2] }) (fun _ => rfl)
    refine ih _ _ hnd.2 ?_ ?_
    · intro q hq
      obtain ⟨b, hb, hbn⟩ := hex q (List.mem_cons_of_mem _ hq)
      rw [hft]
      by_cases hqp : q.1 = p.1
      · rw [hqp] at hb
        rw [ha] at hb
        cases hb
        refine ⟨{ a with foreignKeys := a.foreignKeys ++ [p.2] }, by simp [hqp, ha], ?_⟩
        show lookup ForeignKeySpec.name (a.foreignKeys ++ [p.2]) q.2.name = none
        have hne : p.2.name ≠ q.2.name := by
          intro e
          apply hnd.1
          refine List.mem_map.2 ⟨q, hq, ?_⟩
          rw [hqp, e]
        rw [lookup_append_single]
        have : lookup ForeignKeySpec.name a.foreignKeys q.2.name = none := hbn
        simp [this, hne]
      · exact ⟨b, by simp [hqp, hb], hbn⟩
    · intro q hq
      have := href q (List.mem_cons_of_mem _ hq)
      simp only [referenceExists, Bool.or_eq_true] at this ⊢
      rcases this with h | h
      · exact Or.inl h
      · right
        rw [hfs]
        exact h

theorem diffUnordered_empty (dia : Dialect) (destructive : Bool) (desired : SchemaModel) :
    diffUnordered dia destructive [] desired =
      (firstByName TableSpec.name desired).map Operation.CreateTable := by
  unfold diffUnordered diffByName
  have h2 : (if destructive then
      ((firstByName TableSpec.name ([] : SchemaModel)).filter
        (fun a => (lookup TableSpec.name desired a.name).isNone)).map Operation.DropTable
      else []) = [] := by
    cases destructive <;> rfl
  rw [h2, List.append_nil]
  induction firstByName TableSpec.name desired with
  | nil => rfl
  | cons x xs ih =>
    rw [List.flatMap_cons, ih]
    rfl

theorem createdTables_map_CreateTable (l : List TableSpec) :
    createdTables (l.map Operation.CreateTable) = l := by
  induction l with
  | nil => rfl
  | cons x xs ih =>
    simp only [createdTables, List.map_cons, List.filterMap_cons] at ih ⊢
    rw [ih]

/-- On an empty database the diff only creates tables: the desired tables, each
once. -/
theorem Diff_empty_facts (dia : Dialect) (destructive : Bool) (desired : SchemaModel) :
    List.Perm (createdTables (Diff dia destructive [] desired))
      (firstByName TableSpec.name desired) ∧
    middlePhases (Diff dia destructive [] desired) = [] ∧
    ofKind .addForeignKey (Diff dia destructive [] desired) = [] := by
  have hperm : List.Perm (Diff dia destructive [] desired)
      ((firstByName TableSpec.name desired).map Operation.CreateTable) := by
    rw [← diffUnordered_empty dia destructive desired]
    exact List.perm_insertionSort _ _
  have hkind : ∀ x ∈ Diff dia destructive [] desired, x.kind = OperationKind.createTable := by
    intro x hx
    obtain ⟨t, _, rfl⟩ := List.mem_map.1 (hperm.mem_iff.1 hx)
    rfl
  refine ⟨?_, ?_, ?_⟩
  · have := hperm.filterMap (fun op =>
      match op with
      | Operation.CreateTable t => some t
      | _ => none)
    have h2 := createdTables_map_CreateTable (firstByName TableSpec.name desired)
    unfold createdTables at h2 ⊢
    rw [h2] at this
    exact this
  · rw [List.eq_nil_iff_forall_not_mem]
    intro x hx
    exact (mem_middlePhases.1 hx).2.1 (hkind x (mem_middlePhases.1 hx).1)
  · rw [List.eq_nil_iff_forall_not_mem]
    intro x hx
    have h1 := hkind x (mem_ofKind.1 hx).1
    rw [(mem_ofKind.1 hx).2] at h1
    cases h1

theorem Validate_tableValid {desired : SchemaModel} (hv : Validate desired = none)
    {t : TableSpec} (ht : t ∈ desired) : tableValid desired t = true := by
  unfold Validate at hv
  split at hv
  · rename_i h
    simp only [Bool.and_eq_true, List.all_eq_true] at h
    exact h.2 t ht
  · cases hv

theorem Apply_error_none {dia : Dialect} {conn : Connection} {plan : List Operation}
    {options : Config} (hgate : plan.filter (isDestructive dia) = [])
    (hdry : options.dryRun = false)
    (hrun : (runOperations conn.live [] plan).failed = none) :
    (Apply dia conn plan options).2.error = none ∧
    (Apply dia conn plan options).2.appliedOperations =
      (runOperations conn.live [] plan).applied := by
  unfold Apply
  simp [hgate, hdry, hrun]

/-- The deferred foreign keys of the tables `C`, as table name and key. -/
theorem deferred_as_pairs (C : List TableSpec) :
    C.flatMap deferredForeignKeys =
      (C.flatMap (fun t =>
        (firstByName ForeignKeySpec.name t.foreignKeys).map (fun k => (t.name, k)))).map
        (fun p => Operation.AddForeignKey p.1 p.2) := by
  induction C with
  | nil => rfl
  | cons t ts ih =>
    rw [List.flatMap_cons, List.flatMap_cons, List.map_append, ← ih]
    congr 1
    simp [deferredForeignKeys]

/-- With foreign keys disabled, as in the configuration of `main`, one cycle
against an empty database that can be read ends without error for every
desired schema that passes validation: it creates every table without foreign
keys and then every foreign key. -/
theorem reconcile_converges_on_empty (dia : Dialect) (options : Config)
    (desired : SchemaModel) (conn : Connection) (hfk : options.foreignKeys = false)
    (hdry : options.dryRun = false) (hv : Validate desired = none)
    (hread : conn.readable = true) (hempty : conn.live = []) :
    (reconcile dia options desired conn).2.error = none := by
  obtain ⟨hC, hmid, hadd⟩ := Diff_empty_facts dia options.destructive desired
  have hplan : Plan options.foreignKeys (Diff dia options.destructive [] desired) =
      Except.ok ((createdTables (Diff dia options.destructive [] desired)).map
          (fun t => Operation.CreateTable (stripForeignKeys t)) ++
        (createdTables (Diff dia options.destructive [] desired)).flatMap
          deferredForeignKeys) := by
    unfold Plan
    rw [hfk, hmid, hadd]
    simp
  unfold reconcile
  simp only [hv, Introspect, hread, if_true, hempty, hplan]
  generalize createdTables (Diff dia options.destructive [] desired) = C at hC
  have hmemC : ∀ t ∈ C, t ∈ desired := by
    intro t ht
    exact lookup_mem ((mem_firstByName _ _ t).1 (hC.mem_iff.1 ht))
  have hnames : (C.map TableSpec.name).Nodup :=
    ((hC.map TableSpec.name).nodup_iff).2 (firstByName_names_nodup _ _)
  refine (Apply_error_none ?_ hdry ?_).1
  · rw [List.filter_eq_nil_iff]
    intro x hx
    rw [List.mem_append] at hx
    rcases hx with hx | hx
    · obtain ⟨t, _, rfl⟩ := List.mem_map.1 hx
      simp [isDestructive]
    · obtain ⟨t, _, hx⟩ := List.mem_flatMap.1 hx
      obtain ⟨k, _, rfl⟩ := mem_deferredForeignKeys.1 hx
      simp [isDestructive]
  · rw [hempty, runOperations_creates C [] [] _ hnames]
    · rw [deferred_as_pairs]
      refine runOperations_addForeignKeys _ _ _ ?_ ?_ ?_
      · rw [List.map_flatMap, List.nodup_flatMap]
        refine ⟨?_, ?_⟩
        · intro t _
          rw [List.map_map]
          have := firstByName_names_nodup ForeignKeySpec.name t.foreignKeys
          have h2 : ((fun p : String × ForeignKeySpec => (p.1, p.2.name)) ∘
              (fun k => (t.name, k))) = (fun n => (t.name, n)) ∘ ForeignKeySpec.name := rfl
          rw [h2, ← List.map_map]
          exact this.map (fun a b h => (Prod.mk.inj h).2)
        · have hp : List.Pairwise (fun a b : TableSpec => a.name ≠ b.name) C := by
            rw [List.Nodup, List.pairwise_map] at hnames
            exact hnames
          refine hp.imp ?_
          intro a b hab x hxa hxb
          simp only [List.map_map, List.mem_map, Function.comp] at hxa hxb
          obtain ⟨_, _, rfl⟩ := hxa
          obtain ⟨_, _, h⟩ := hxb
          exact hab (Prod.mk.inj h).1.symm
      · intro p hp
        obtain ⟨t, ht, hp⟩ := List.mem_flatMap.1 hp
        obtain ⟨k, _, rfl⟩ := List.mem_map.1 hp
        simp only [List.nil_append]
        rw [findTable_map_strip]
        have hs := findTable_isSome_of_mem ht
        cases hf : findTable C t.name with
        | none => rw [hf] at hs; cases hs
        | some a => exact ⟨stripForeignKeys a, rfl, rfl⟩
      · intro p hp
        obtain ⟨t, ht, hp⟩ := List.mem_flatMap.1 hp
        obtain ⟨k, hk, rfl⟩ := List.mem_map.1 hp
        have hkt : k ∈ t.foreignKeys := lookup_mem ((mem_firstByName _ _ k).1 hk)
        have hval := Validate_tableValid hv (hmemC t ht)
        simp only [tableValid, Bool.and_eq_true, List.all_eq_true] at hval
        have hkv := hval.2 k hkt
        simp only [foreignKeyValid, Bool.and_eq_true] at hkv
        simp only [referenceExists, Bool.or_eq_true, List.nil_append]
        right
        rw [findTable_map_strip]
        cases hr : findTable desired k.refTable with
        | none => rw [hr] at hkv; simp at hkv
        | some r =>
          have hrn : r.name = k.refTable := lookup_key hr
          have hrC : r ∈ C := by
            refine hC.mem_iff.2 ((mem_firstByName _ _ r).2 ?_)
            rw [hrn]
            exact hr
          have := findTable_isSome_of_mem hrC
          rw [hrn] at this
          simpa using this
    · intro t _
      rfl
    · intro t ht
      have hval := Validate_tableValid hv (hmemC t ht)
      simp only [tableValid, Bool.and_eq_true] at hval
      exact ⟨hval.1.1.1, hval.1.1.2⟩

end MigrateDb
